import Mathlib

/-!
Verification of the cover-art-cache service (metabrainz/cover-art-cache).

Shallow embedding of the Python sources:
  * `cache.py` / `cover_art_cache/cache.py` — `CacheItem`, `validate_mbid`,
    `get_cache_subdir`, `DistributedCacheIndex` (`add_item`, `remove_item`,
    `get_total_bytes`, `get_item_count`, `scan_cache_directory`,
    `atomic_index_swap`, `exists`).
  * `app.py` / `cover_art_cache/app.py` — `generate_cache_key`, `get_cache_path`.
  * `cleaner_service.py` — Redis-index based `CacheCleanupService`
    (`get_oldest_items`, `acquire_cleanup_lock`, `remove_cache_item`,
    `cleanup_cache`).
  * `cover_art_cache/cleaner_service.py` — filesystem based
    `CacheCleanupService.cleanup_cache` (bounded max-heap selection).

The Redis store is modelled as an explicit state record.  Hashes are
association lists (a Redis hash key exists iff it has at least one field),
string keys holding integers are `Option Int` (`none` = key absent).
A Redis pipeline (redis-py `MULTI`/`EXEC` transaction) is applied
all-or-nothing, which is the atomicity the code itself relies on
("Execute pipeline atomically").  Python strings are modelled through
their character lists so that every operation is kernel-computable.
-/

namespace CoverArtCache

/-- One cached artifact, translated from the `CacheItem` dataclass in
`cache.py`.  `downloaded_at` is a `time.time()` / `st_mtime` float in
Python; only its ordering matters, so it is modelled as `Nat`. -/
structure CacheItem where
  cache_type : String
  mbid : String
  cache_key : String
  file_path : String
  downloaded_at : Nat
  size_bytes : Nat
deriving DecidableEq

/-- The slice of the external Redis store used by the service:
`cache:items` / `cache:total_bytes` (live index), their `:temp` shadow
copies used by the rebuild pipeline, and `cache:cleanup_lock`. -/
structure RedisState where
  liveItems : List (String × CacheItem)
  liveTotal : Option Int
  tempItems : List (String × CacheItem)
  tempTotal : Option Int
  lock : Option String
deriving DecidableEq

def emptyState : RedisState := ⟨[], none, [], none, none⟩

/-- Redis `HSET hash field value`: replace the field if present, create it
otherwise.  Because hash fields are unique, removing every stale binding
and appending the new one is the field-update semantics. -/
def hset (m : List (String × CacheItem)) (k : String) (v : CacheItem) :
    List (String × CacheItem) :=
  m.filter (fun p => p.1 ≠ k) ++ [(k, v)]

/-- Redis `HDEL hash field`. -/
def hdel (m : List (String × CacheItem)) (k : String) : List (String × CacheItem) :=
  m.filter (fun p => p.1 ≠ k)

/-- Redis `HGET hash field`. -/
def hget (m : List (String × CacheItem)) (k : String) : Option CacheItem :=
  (m.find? (fun p => p.1 = k)).map (fun p => p.2)

/-- The common body of `DistributedCacheIndex.add_item` (cache.py lines
82–111), acting on one (items hash, total-bytes counter) namespace, so that
the scanner can reuse it on the `:temp` namespace exactly as the Python
code reuses `add_item` through a re-keyed `DistributedCacheIndex`.
Reads the prior size of the same cache key, then applies
`HSET` + `INCRBY (size - old_size)` in one pipeline. -/
def addToIndex (items : List (String × CacheItem)) (total : Option Int)
    (item : CacheItem) : List (String × CacheItem) × Option Int :=
  let old_size : Int :=
    match hget items item.cache_key with
    | some old => old.size_bytes
    | none => 0
  (hset items item.cache_key item,
   some (total.getD 0 + (item.size_bytes : Int) - old_size))

/-- Model of `DistributedCacheIndex.add_item` on the live namespace, in the
no-store-failure case (a store failure is logged and leaves the state
unchanged; the claims quantify over successful calls). -/
def add_item (s : RedisState) (item : CacheItem) : RedisState :=
  let r := addToIndex s.liveItems s.liveTotal item
  { s with liveItems := r.1, liveTotal := r.2 }

/-- Model of `DistributedCacheIndex.remove_item` (cache.py lines 113–134):
returns the removed item (`none` when absent) and applies
`HDEL` + `DECRBY size` in one pipeline. -/
def remove_item (s : RedisState) (cache_key : String) :
    Option CacheItem × RedisState :=
  match hget s.liveItems cache_key with
  | none => (none, s)
  | some item =>
    (some item,
     { s with liveItems := hdel s.liveItems cache_key,
              liveTotal := some (s.liveTotal.getD 0 - (item.size_bytes : Int)) })

/-- Model of `DistributedCacheIndex.get_total_bytes`: `int(total) if total else 0`. -/
def get_total_bytes (s : RedisState) : Int :=
  s.liveTotal.getD 0

/-- Model of `DistributedCacheIndex.get_item_count`: `HLEN cache:items`. -/
def get_item_count (s : RedisState) : Nat :=
  s.liveItems.length

/-- Model of `DistributedCacheIndex.exists` (cover_art_cache/cache.py lines
374–396): checks `EXISTS` on both keys, then `HLEN > 0`. -/
def existsIndex (s : RedisState) : Bool :=
  let items_exist := !s.liveItems.isEmpty
  let bytes_exist := s.liveTotal.isSome
  if !items_exist || !bytes_exist then false
  else decide (s.liveItems.length > 0)

/-- Lowercase-hex check for one character of an MBID. -/
def isHexLower (c : Char) : Bool :=
  (decide ('0' ≤ c) && decide (c ≤ '9')) || (decide ('a' ≤ c) && decide (c ≤ 'f'))

/-- Character-level shape of `MBID_PATTERN`:
`[0-9a-f]{8}-[0-9a-f]{4}-[0-9a-f]{4}-[0-9a-f]{4}-[0-9a-f]{12}`. -/
def mbidShape (cs : List Char) : Bool :=
  let block := fun (n : Nat) (l : List Char) =>
    decide (l.length = n) && l.all isHexLower
  match cs.splitOn '-' with
  | [a, b, c, d, e] =>
    block 8 a && block 4 b && block 4 c && block 4 d && block 12 e
  | _ => false

/-- Model of `validate_mbid` (cache.py line 52): `bool(MBID_PATTERN.match(mbid))`.
Python's `re` makes `$` also match just before a final newline, so a
36-character MBID followed by a single trailing `\n` is accepted too. -/
def validate_mbid (mbid : String) : Bool :=
  let cs := mbid.toList
  mbidShape cs ||
    (decide (cs.getLast? = some (Char.ofNat 10)) && mbidShape (cs.dropLast))

/-- Python `cache_key.split('_')[0]`: the prefix before the first
underscore (the whole string when it has none). -/
def mbidOfKey (cache_key : String) : String :=
  String.mk (cache_key.toList.takeWhile (fun c => c ≠ '_'))

/-- Python slice `s[a:b]` on a string. -/
def strSlice (s : String) (a b : Nat) : String :=
  String.mk ((s.toList.take b).drop a)

/-- Model of `generate_cache_key` (app.py lines 179–187): the size component is
appended only when the path component is non-empty. -/
def generate_cache_key (mbid path size : String) : String :=
  if path ≠ "" then
    if size ≠ "" then mbid ++ "_" ++ path ++ "_" ++ size
    else mbid ++ "_" ++ path
  else mbid

/-- Model of `get_cache_subdir` (cache.py lines 56–61), as path components below
`CACHE_DIR`: `char1 = mbid[0]`, `char2 = mbid[1:3]`, `char3 = mbid[0:3]`.
(For identifiers shorter than 1 character Python raises `IndexError`;
the claims only evaluate it on validated identifiers.) -/
def get_cache_subdir (cache_type mbid : String) : List String :=
  [cache_type, strSlice mbid 0 1, strSlice mbid 1 3, strSlice mbid 0 3]

/-- The independent inline shard computation of `get_cache_path` in the
top-level `src/app.py` (lines 202–208): `char1 = mbid[0]`,
`char2 = mbid[:2]`, `char3 = mbid[:3]`. -/
def appCachePathDirs (cache_type mbid : String) : List String :=
  [cache_type, strSlice mbid 0 1, strSlice mbid 0 2, strSlice mbid 0 3]

/-- The filesystem as far as the path codec touches it: the set of
existing directories (as component paths below the cache root) and the
cached files with their sizes. -/
structure CacheFs where
  dirs : List (List String)
  fileData : List (List String × Nat)
deriving DecidableEq

/-- All non-empty prefixes of a directory path, innermost last —
the directories `mkdir(parents=True, exist_ok=True)` guarantees. -/
def dirChain (d : List String) : List (List String) :=
  (List.range d.length).map (fun i => d.take (i + 1))

def insertDir (ds : List (List String)) (d : List String) : List (List String) :=
  if d ∈ ds then ds else ds ++ [d]

/-- Model of `get_cache_path` (cover_art_cache/app.py lines 82–104): extracts the
MBID from the cache key, computes the shard directory via
`get_cache_subdir`, performs `mkdir(parents=True, exist_ok=True)` on it,
and returns `cache_subdir / f"{cache_key}{extension}"`. -/
def get_cache_path (fs : CacheFs) (cache_type cache_key extension : String) :
    List String × CacheFs :=
  let mbid := mbidOfKey cache_key
  let cache_subdir := get_cache_subdir cache_type mbid
  let fs' := { fs with dirs := (dirChain cache_subdir).foldl insertDir fs.dirs }
  (cache_subdir ++ [cache_key ++ extension], fs')

/-- One file met by `scan_cache_directory`'s `rglob` walk: its category
directory, filename stem (`file_path.stem`, extension removed), full path,
`st_mtime` and `st_size`.  The input list is the walk order — all files
under `release/`, then all under `release-group/`. -/
structure ScanFile where
  cache_type : String
  stem : String
  path : String
  mtime : Nat
  size_bytes : Nat
deriving DecidableEq

/-- The `CacheItem` that `scan_cache_directory` builds for one file. -/
def scanItem (f : ScanFile) : CacheItem :=
  { cache_type := f.cache_type
    mbid := mbidOfKey f.stem
    cache_key := f.stem
    file_path := f.path
    downloaded_at := f.mtime
    size_bytes := f.size_bytes }

/-- A file participates in the scan iff the leading component of its stem
validates as an MBID; malformed names are skipped with a warning. -/
def scanValid (f : ScanFile) : Bool :=
  validate_mbid (mbidOfKey f.stem)

/-- One iteration of the scan loop over `(temp items, temp total,
files_scanned, total_bytes)`. -/
def scanStep (acc : List (String × CacheItem) × Option Int × Nat × Nat)
    (f : ScanFile) : List (String × CacheItem) × Option Int × Nat × Nat :=
  if scanValid f then
    let r := addToIndex acc.1 acc.2.1 (scanItem f)
    (r.1, r.2, acc.2.2.1 + 1, acc.2.2.2 + f.size_bytes)
  else acc

/-- Model of `DistributedCacheIndex.scan_cache_directory`
(cover_art_cache/cache.py lines 218–314), no-store-failure run: clears the
`:temp` keys, initialises the temp counter to 0, adds every well-named
file to the temp namespace through `add_item`, and finally overwrites the
temp counter with the locally accumulated `total_bytes`.  Returns
`(files_scanned, total_bytes)` and the new store state. -/
def scan_cache_directory (files : List ScanFile) (s : RedisState) :
    (Nat × Nat) × RedisState :=
  let r := files.foldl scanStep ([], some 0, 0, 0)
  ((r.2.2.1, r.2.2.2),
   { s with tempItems := r.1, tempTotal := some (r.2.2.2 : Int) })

/-- The `except` branch of `atomic_index_swap`: best-effort
`DEL temp_items temp_total` (itself swallowing store errors), then
`return False`.  `i` is the failure-oracle slot of the cleanup call. -/
def swapFail (fails : Nat → Bool) (i : Nat) (s : RedisState) :
    Bool × RedisState :=
  if fails i then (false, s)
  else (false, { s with tempItems := [], tempTotal := none })

/-- Model of `DistributedCacheIndex.atomic_index_swap`
(cover_art_cache/cache.py lines 316–372).  `fails n` says whether the
`n`-th Redis round trip raises (0 = `EXISTS temp_total`, 1 =
`GET temp_total`, 2 = `EXISTS temp_items`, 3 = `HLEN temp_items`,
4 = the pipeline `EXEC`; slot 9 is the cleanup `DEL` of the except
branch).  The queued pipeline — delete both live keys, set the live
counter, rename the temp hash over the live hash (or leave it deleted
when the temp hash is empty), delete the temp keys — is applied
all-or-nothing at `EXEC`. -/
def atomic_index_swap (fails : Nat → Bool) (s : RedisState) :
    Bool × RedisState :=
  if fails 0 then swapFail fails 9 s
  else if s.tempTotal.isNone then (false, s)
  else if fails 1 then swapFail fails 9 s
  else
    let temp_total_bytes := s.tempTotal.getD 0
    if fails 2 then swapFail fails 9 s
    else if s.tempItems ≠ [] && fails 3 then swapFail fails 9 s
    else if fails 4 then swapFail fails 9 s
    else
      (true,
       { s with liveItems := s.tempItems,
                liveTotal := some temp_total_bytes,
                tempItems := [],
                tempTotal := none })

/-- Scanner followed by Swapper with no injected store failures —
the `startup_cache_scan` rebuild pipeline. -/
def scanThenSwap (files : List ScanFile) (s : RedisState) : Bool × RedisState :=
  atomic_index_swap (fun _ => false) (scan_cache_directory files s).2

/-- Ordered insertion for a boolean "less or equal": `x` is placed before
the first element it compares `le` to, so equal keys keep their original
relative order (the stability contract of Python's `sort`/`heapq`). -/
def insertSorted (le : α → α → Bool) (x : α) : List α → List α
  | [] => [x]
  | y :: ys => if le x y then x :: y :: ys else y :: insertSorted le x ys

/-- Stable insertion sort, modelling Python's `list.sort(key=...)`. -/
def sortLe (le : α → α → Bool) : List α → List α
  | [] => []
  | x :: xs => insertSorted le x (sortLe le xs)

/-- Comparison used by `get_oldest_items`:
`items_with_time.sort(key=lambda x: x[0])` sorts by download time only. -/
def ageLe (a b : String × CacheItem) : Bool :=
  decide (a.2.downloaded_at ≤ b.2.downloaded_at)

/-- Model of `CacheCleanupService.get_oldest_items` (cleaner_service.py lines
73–94): read the whole hash, sort by `downloaded_at`, return the first
`count` item payloads. -/
def get_oldest_items (s : RedisState) (count : Nat) : List CacheItem :=
  ((sortLe ageLe s.liveItems).take count).map (fun p => p.2)

/-- Model of `CacheCleanupService.remove_cache_item` (cleaner_service.py lines
111–133): look the key up, `HDEL` + `DECRBY size` in one pipeline, and
return the removed size (0 when the key is absent). -/
def remove_cache_item (s : RedisState) (cache_key : String) :
    Nat × RedisState :=
  match hget s.liveItems cache_key with
  | none => (0, s)
  | some item =>
    (item.size_bytes,
     { s with liveItems := hdel s.liveItems cache_key,
              liveTotal := some (s.liveTotal.getD 0 - (item.size_bytes : Int)) })

/-- Observable events of one `cleanup_cache` invocation, used to state
the temporal claims: the watermark reads, the lock acquisition attempt,
the index removals and the lock release. -/
inductive Event where
  | checkSize
  | acquireFail
  | acquireOk
  | recheck
  | removeItem (cache_key : String)
  | release
deriving DecidableEq

/-- Accumulator of the deletion loop in `cleanup_cache`. -/
structure DelAcc where
  state : RedisState
  freed : Nat
  removed : List CacheItem
  removedCount : Nat
  processed : Nat
deriving DecidableEq

/-- The `for item_data in oldest_items` loop of `cleanup_cache`
(cleaner_service.py lines 169–193).  `unlinkFails k` means
`file_path.unlink()` raised for that item, in which case the `except`
branch still removes it from the index but does not count it as freed.
`abort = some n` injects an unexpected exception just before the `n`-th
iteration's work (modelling a crash mid-cleanup); the returned flag says
whether that exception escaped to the `finally`. -/
def delLoop (unlinkFails : String → Bool) (abort : Option Nat)
    (bytes_to_free : Int) : List CacheItem → DelAcc → DelAcc × Bool
  | [], a => (a, false)
  | item :: rest, a =>
    if (a.freed : Int) ≥ bytes_to_free then (a, false)
    else if abort = some a.processed then (a, true)
    else if unlinkFails item.cache_key then
      let r := remove_cache_item a.state item.cache_key
      delLoop unlinkFails abort bytes_to_free rest
        { a with state := r.2, removed := a.removed ++ [item],
                 processed := a.processed + 1 }
    else
      let r := remove_cache_item a.state item.cache_key
      delLoop unlinkFails abort bytes_to_free rest
        { state := r.2, freed := a.freed + r.1,
          removed := a.removed ++ [item],
          removedCount := if r.1 > 0 then a.removedCount + 1 else a.removedCount,
          processed := a.processed + 1 }

/-- Result of one `cleanup_cache` invocation. -/
structure CleanupOut where
  state : RedisState
  trace : List Event
  freed : Nat
  removed : List CacheItem
  raised : Bool
deriving DecidableEq

/-- Value of `int(MAX_CACHE_SIZE * CLEANUP_THRESHOLD)` with `CLEANUP_THRESHOLD =
0.95`, computed with exact rational arithmetic (the float product can
differ by at most one ulp; no claim depends on the exact cut-off). -/
def cleanupThresholdSize (maxCacheSize : Nat) : Nat :=
  maxCacheSize * 95 / 100

/-- Value of `int(MAX_CACHE_SIZE * CLEANUP_TARGET)` with `CLEANUP_TARGET = 0.9`. -/
def cleanupTargetSize (maxCacheSize : Nat) : Nat :=
  maxCacheSize * 9 / 10

/-- Model of `CacheCleanupService.cleanup_cache` (cleaner_service.py lines
135–200).  `g` is what the other processes do to the store while this
process holds the lock (applied between `acquire` and the re-check; `id`
for an interference-free run).  Mirrors the control flow: watermark
check, `SET NX EX` lock acquisition, re-check under the lock, deletion
loop over the 1000 oldest items, and an unconditional `finally:
release_cleanup_lock()` (`DEL cache:cleanup_lock`). -/
def cleanup_cache (g : RedisState → RedisState) (unlinkFails : String → Bool)
    (abort : Option Nat) (maxCacheSize : Nat) (s : RedisState) : CleanupOut :=
  let threshold : Int := (cleanupThresholdSize maxCacheSize : Nat)
  if get_total_bytes s ≤ threshold then
    ⟨s, [.checkSize], 0, [], false⟩
  else if s.lock.isSome then
    ⟨s, [.checkSize, .acquireFail], 0, [], false⟩
  else
    let s1 := { s with lock := some "cleanup_service" }
    let s2 := g s1
    if get_total_bytes s2 ≤ threshold then
      ⟨{ s2 with lock := none }, [.checkSize, .acquireOk, .recheck, .release],
       0, [], false⟩
    else
      let target : Int := (cleanupTargetSize maxCacheSize : Nat)
      let bytes_to_free := get_total_bytes s2 - target
      let oldest := get_oldest_items s2 1000
      let r := delLoop unlinkFails abort bytes_to_free oldest ⟨s2, 0, [], 0, 0⟩
      ⟨{ r.1.state with lock := none },
       [.checkSize, .acquireOk, .recheck]
         ++ r.1.removed.map (fun item => .removeItem item.cache_key)
         ++ [.release],
       r.1.freed, r.1.removed, r.2⟩

/-- One file of the cache tree as seen by the filesystem-mode cleaner. -/
structure FsFile where
  path : String
  mtime : Nat
  size_bytes : Nat
deriving DecidableEq

/-- Lexicographic order on character lists — the tie-break Python applies
when two heap tuples share a first component and compares the paths. -/
def chLt : List Char → List Char → Bool
  | [], [] => false
  | [], _ :: _ => true
  | _ :: _, [] => false
  | a :: as, b :: bs =>
    if a < b then true
    else if b < a then false
    else chLt as bs

def pathLt (a b : FsFile) : Bool :=
  chLt a.path.toList b.path.toList

/-- Heap order of the selection heap: `heapq` on tuples
`(-st_mtime, file_path, st_size)`, so the minimum is the newest
candidate.  `-a.mtime ≤ -b.mtime` is `b.mtime ≤ a.mtime`. -/
def heapLe (a b : FsFile) : Bool :=
  decide (b.mtime < a.mtime) ||
    (decide (a.mtime = b.mtime) &&
      (pathLt a b ||
        (decide (a.path = b.path) && decide (a.size_bytes ≤ b.size_bytes))))

/-- Order of the deletion phase: tuples `(st_mtime, file_path, st_size)`,
oldest first. -/
def delLe (a b : FsFile) : Bool :=
  decide (a.mtime < b.mtime) ||
    (decide (a.mtime = b.mtime) &&
      (pathLt a b ||
        (decide (a.path = b.path) && decide (a.size_bytes ≤ b.size_bytes))))

/-- The scanning loop of `cleanup_cache`
(cover_art_cache/cleaner_service.py lines 100–126).  The heap is kept as
a list sorted ascending by `heapLe`, whose head is `files_to_delete[0]`,
the newest current candidate.  While `accumulated_size <
target_accumulated` every file is pushed; afterwards a strictly older
file replaces the newest candidate (`-st_mtime > files_to_delete[0][0]`),
adjusting `accumulated_size` by the size difference. -/
def heapSelect (target_accumulated : Int) :
    List FsFile → List FsFile → Int → List FsFile × Int
  | [], heap, accumulated => (heap, accumulated)
  | f :: rest, [], accumulated =>
    if accumulated < target_accumulated then
      heapSelect target_accumulated rest (insertSorted heapLe f [])
        (accumulated + f.size_bytes)
    else heapSelect target_accumulated rest [] accumulated
  | f :: rest, top :: hs, accumulated =>
    if accumulated < target_accumulated then
      heapSelect target_accumulated rest (insertSorted heapLe f (top :: hs))
        (accumulated + f.size_bytes)
    else if f.mtime < top.mtime then
      heapSelect target_accumulated rest (insertSorted heapLe f hs)
        (accumulated - top.size_bytes + f.size_bytes)
    else heapSelect target_accumulated rest (top :: hs) accumulated

/-- The deletion loop (cover_art_cache/cleaner_service.py lines 143–155):
pop oldest first while `freed_bytes < bytes_to_free`; a failed `unlink`
is logged and skipped (the file stays, nothing is counted). -/
def heapDelete (unlinkFails : String → Bool) (bytes_to_free : Int) :
    List FsFile → List FsFile × Nat → List FsFile × Nat
  | [], acc => acc
  | f :: rest, (removed, freed) =>
    if (freed : Int) ≥ bytes_to_free then (removed, freed)
    else if unlinkFails f.path then
      heapDelete unlinkFails bytes_to_free rest (removed, freed)
    else
      heapDelete unlinkFails bytes_to_free rest
        (removed ++ [f], freed + f.size_bytes)

/-- Result of one filesystem-mode `cleanup_cache` run. -/
structure HeapCleanOut where
  fsFiles : List FsFile
  freed : Nat
  removed : List FsFile
deriving DecidableEq

/-- Value of `int(bytes_to_free * 1.2)` — the 20% over-collection slack — with
exact rational arithmetic; a non-positive `bytes_to_free` yields 0, which
drives the loop identically to Python's negative product (nothing is ever
pushed). -/
def targetAccumulated (bytes_to_free : Int) : Int :=
  (bytes_to_free.toNat * 12 / 10 : Nat)

/-- Model of `CacheCleanupService.cleanup_cache` of the filesystem-mode cleaner
(cover_art_cache/cleaner_service.py lines 67–162): measure the tree, do
nothing below `MAX_SIZE_MB`, otherwise select candidates with the bounded
max-heap scan and delete them oldest-first until `bytes_to_free` is
freed.  `files` is the `rglob` walk order; sizes are in bytes. -/
def cleanup_cache_fs (maxSizeBytes cleanToBytes : Nat)
    (unlinkFails : String → Bool) (files : List FsFile) : HeapCleanOut :=
  let cache_size : Nat := (files.map (fun f => f.size_bytes)).sum
  if cache_size < maxSizeBytes then ⟨files, 0, []⟩
  else
    let bytes_to_free : Int := (cache_size : Int) - (cleanToBytes : Int)
    let sel := heapSelect (targetAccumulated bytes_to_free) files [] 0
    let candidates := sortLe delLe sel.1
    let r := heapDelete unlinkFails bytes_to_free candidates ([], 0)
    ⟨files.filter (fun f => !(r.1.map (fun d => d.path)).contains f.path),
     r.2, r.1⟩

/-- One cycle of the filesystem-mode cleanup service, placed in an
environment where the shared store's `cache:cleanup_lock` key currently
holds `lock`.  The service's `run` loop (cover_art_cache/
cleaner_service.py lines 164–182) calls `cleanup_cache()` directly: the
module opens no Redis connection and contains no lock primitive, so the
cycle neither reads nor writes the lock — the parameter is unused, which
is precisely the embedded fact that no lock acquisition is attempted. -/
def cleanup_cache_fs_cycle (lock : Option String) (maxSizeBytes cleanToBytes : Nat)
    (unlinkFails : String → Bool) (files : List FsFile) :
    HeapCleanOut × Option String :=
  (cleanup_cache_fs maxSizeBytes cleanToBytes unlinkFails files, lock)

/-- A sequence of index mutations issued by the serving processes. -/
inductive CacheOp where
  | add (item : CacheItem)
  | remove (cache_key : String)

def applyOp (s : RedisState) : CacheOp → RedisState
  | .add item => add_item s item
  | .remove k => (remove_item s k).2

def applyOps (ops : List CacheOp) : RedisState :=
  ops.foldl applyOp emptyState

/-- Sum of `size_bytes` over the entries of an items hash. -/
def sumSizes (m : List (String × CacheItem)) : Int :=
  (m.map (fun p => (p.2.size_bytes : Int))).sum

/-- Hash fields are pairwise distinct (always true of a Redis hash). -/
def NodupKeys (m : List (String × CacheItem)) : Prop :=
  (m.map (fun p => p.1)).Nodup

/-- Every entry is stored under its own `cache_key` field, as `add_item`
always does. -/
def WellKeyed (m : List (String × CacheItem)) : Prop :=
  ∀ p ∈ m, p.2.cache_key = p.1

/-! ### Concrete fixtures for witnesses and counterexamples -/

/-- Four indexed entries with known ages and sizes. -/
def itemA : CacheItem := ⟨"release", "a", "a", "a", 10, 80⟩

def itemB : CacheItem := ⟨"release", "b", "b", "b", 90, 5⟩

def itemC : CacheItem := ⟨"release", "c", "c", "c", 5, 1⟩

def itemD : CacheItem := ⟨"release", "d", "d", "d", 95, 60⟩

/-- A live index holding the four entries, 146 bytes total, lock free. -/
def cexIndexState : RedisState :=
  ⟨[("a", itemA), ("b", itemB), ("c", itemC), ("d", itemD)], some 146, [], none, none⟩

/-- The same population as on-disk files, in `rglob` walk order. -/
def fileA : FsFile := ⟨"a", 10, 80⟩

def fileB : FsFile := ⟨"b", 90, 5⟩

def fileC : FsFile := ⟨"c", 5, 1⟩

def fileD : FsFile := ⟨"d", 95, 60⟩

def cexFiles : List FsFile := [fileA, fileB, fileC, fileD]

/-- A state with a completed shadow scan, for the swap-failure witness. -/
def c2FailState : RedisState :=
  ⟨[("a", itemA)], some 80, [("b", itemB)], some 5, none⟩

/-- One valid MBID, and a cache tree holding the same stem twice with two
different extensions (`x.jpg` and `x.png`). -/
def mbidAAAA : String := "aaaaaaaa-aaaa-aaaa-aaaa-aaaaaaaaaaaa"

def cexScanFiles : List ScanFile :=
  [⟨"release", mbidAAAA, "x.jpg", 100, 10⟩,
   ⟨"release", mbidAAAA, "x.png", 200, 20⟩]

/-- The MBID of the docstring example in `get_cache_path`
("MBID ebe78b00-... creates path: release/e/eb/ebe/..."). -/
def mbidEbe : String := "ebe78b00-0000-0000-0000-000000000000"

/-- A nonempty index whose byte-counter key is absent. -/
def c8State : RedisState := ⟨[("a", itemA)], none, [], none, none⟩

/-- An empty filesystem, and one holding a single directory. -/
def emptyFs : CacheFs := ⟨[], []⟩

def oneDirFs : CacheFs := ⟨[["x"]], []⟩

/-! ### Sorting lemmas -/

theorem perm_insertSorted (le : α → α → Bool) (x : α) (l : List α) :
    List.Perm (insertSorted le x l) (x :: l) := by
  induction l with
  | nil => simp [insertSorted]
  | cons y ys ih =>
    rw [insertSorted]
    by_cases h : le x y = true
    · simp [h]
    · simp only [h, if_false]
      exact (ih.cons y).trans (List.Perm.swap x y ys)

theorem perm_sortLe (le : α → α → Bool) (l : List α) :
    List.Perm (sortLe le l) l := by
  induction l with
  | nil => simp [sortLe]
  | cons x xs ih =>
    rw [sortLe]
    exact (perm_insertSorted le x (sortLe le xs)).trans (ih.cons x)

/-- Ordered insertion preserves pairwise `R`-sortedness, for any
transitive `R` that over-approximates the boolean comparison in both
directions. -/
theorem pairwise_insertSorted {R : α → α → Prop} (le : α → α → Bool)
    (hle : ∀ a b, le a b = true → R a b)
    (hgt : ∀ a b, le a b = false → R b a)
    (htrans : ∀ a b c, R a b → R b c → R a c)
    (x : α) (l : List α) (h : l.Pairwise R) :
    (insertSorted le x l).Pairwise R := by
  induction l with
  | nil => simp [insertSorted]
  | cons y ys ih =>
    rw [insertSorted]
    rcases List.pairwise_cons.mp h with ⟨hy, hys⟩
    by_cases hxy : le x y = true
    · simp only [hxy, if_true]
      refine List.pairwise_cons.mpr ⟨?_, h⟩
      intro z hz
      rcases List.mem_cons.mp hz with rfl | hz
      · exact hle x z hxy
      · exact htrans x y z (hle x y hxy) (hy z hz)
    · simp only [hxy, if_false]
      refine List.pairwise_cons.mpr ⟨?_, ih hys⟩
      intro z hz
      rcases List.mem_cons.mp ((perm_insertSorted le x ys).mem_iff.mp hz) with rfl | hz
      · exact hgt z y (Bool.not_eq_true _ |>.mp hxy)
      · exact hy z hz

theorem pairwise_sortLe {R : α → α → Prop} (le : α → α → Bool)
    (hle : ∀ a b, le a b = true → R a b)
    (hgt : ∀ a b, le a b = false → R b a)
    (htrans : ∀ a b c, R a b → R b c → R a c)
    (l : List α) : (sortLe le l).Pairwise R := by
  induction l with
  | nil => simp [sortLe]
  | cons x xs ih =>
    rw [sortLe]
    exact pairwise_insertSorted le hle hgt htrans x (sortLe le xs) ih

/-- The items hash sorted by `get_oldest_items` is nondecreasing in
`downloaded_at`. -/
theorem pairwise_sortAge (m : List (String × CacheItem)) :
    (sortLe ageLe m).Pairwise
      (fun p q => p.2.downloaded_at ≤ q.2.downloaded_at) := by
  refine pairwise_sortLe ageLe ?_ ?_ ?_ m
  · intro a b h
    exact of_decide_eq_true h
  · intro a b h
    exact Nat.le_of_lt (Nat.lt_of_not_le (of_decide_eq_false h))
  · intro a b c h1 h2
    exact Nat.le_trans h1 h2

/-- The deletion-phase candidate list of the filesystem cleaner is
nondecreasing in `st_mtime`. -/
theorem pairwise_sortDel (l : List FsFile) :
    (sortLe delLe l).Pairwise (fun a b => a.mtime ≤ b.mtime) := by
  refine pairwise_sortLe delLe ?_ ?_ ?_ l
  · intro a b h
    rcases Bool.or_eq_true_iff.mp h with h1 | h2
    · exact Nat.le_of_lt (of_decide_eq_true h1)
    · exact Nat.le_of_eq (of_decide_eq_true (Bool.and_elim_left h2))
  · intro a b h
    rcases Bool.or_eq_false_iff.mp h with ⟨h1, _⟩
    exact Nat.le_of_not_lt (of_decide_eq_false h1)
  · intro a b c h1 h2
    exact Nat.le_trans h1 h2

/-! ### Hash and counter lemmas -/

/-- The prior size `add_item` reads for a cache key. -/
def oldSizeOf (m : List (String × CacheItem)) (k : String) : Int :=
  match hget m k with
  | some old => old.size_bytes
  | none => 0

theorem nodupKeys_filter (m : List (String × CacheItem))
    (p : String × CacheItem → Bool) (h : NodupKeys m) :
    NodupKeys (m.filter p) := by
  unfold NodupKeys at h ⊢
  exact (List.Sublist.map (fun q => q.1) (List.filter_sublist m)).nodup h

theorem hdel_eq_filter (m : List (String × CacheItem)) (k : String) :
    hdel m k = m.filter (fun p => p.1 ≠ k) := rfl

theorem hset_eq_hdel_append (m : List (String × CacheItem)) (k : String)
    (v : CacheItem) : hset m k v = hdel m k ++ [(k, v)] := rfl

theorem not_mem_keys_hdel (m : List (String × CacheItem)) (k : String) :
    k ∉ (hdel m k).map (fun p => p.1) := by
  rw [hdel_eq_filter]
  simp only [List.mem_map, List.mem_filter]
  rintro ⟨p, ⟨_, hp⟩, rfl⟩
  exact (of_decide_eq_true hp) rfl

theorem nodupKeys_hdel (m : List (String × CacheItem)) (k : String)
    (h : NodupKeys m) : NodupKeys (hdel m k) :=
  nodupKeys_filter m _ h

theorem nodupKeys_hset (m : List (String × CacheItem)) (k : String)
    (v : CacheItem) (h : NodupKeys m) : NodupKeys (hset m k v) := by
  rw [hset_eq_hdel_append]
  unfold NodupKeys
  rw [List.map_append]
  refine List.Nodup.append (nodupKeys_hdel m k h) (List.nodup_singleton k) ?_
  intro a ha hb
  rcases List.mem_singleton.mp hb with rfl
  exact not_mem_keys_hdel m a ha

theorem sumSizes_cons (p : String × CacheItem) (m : List (String × CacheItem)) :
    sumSizes (p :: m) = (p.2.size_bytes : Int) + sumSizes m := by
  simp [sumSizes]

theorem sumSizes_append (m₁ m₂ : List (String × CacheItem)) :
    sumSizes (m₁ ++ m₂) = sumSizes m₁ + sumSizes m₂ := by
  simp [sumSizes]

theorem hdel_cons_hit (p : String × CacheItem) (rest : List (String × CacheItem))
    (k : String) (hpk : p.1 = k) : hdel (p :: rest) k = hdel rest k := by
  simp [hdel, List.filter_cons, hpk]

theorem hdel_cons_miss (p : String × CacheItem) (rest : List (String × CacheItem))
    (k : String) (hpk : ¬p.1 = k) : hdel (p :: rest) k = p :: hdel rest k := by
  simp [hdel, List.filter_cons, hpk]

theorem hget_cons_hit (p : String × CacheItem) (rest : List (String × CacheItem))
    (k : String) (hpk : p.1 = k) : hget (p :: rest) k = some p.2 := by
  simp [hget, List.find?_cons_of_pos, hpk]

theorem hget_cons_miss (p : String × CacheItem) (rest : List (String × CacheItem))
    (k : String) (hpk : ¬p.1 = k) : hget (p :: rest) k = hget rest k := by
  simp [hget, List.find?_cons_of_neg, hpk]

/-- On a duplicate-free hash, the total size splits into the entries with
other keys plus the size stored at `k`. -/
theorem sumSizes_hdel_add (m : List (String × CacheItem)) (k : String)
    (h : NodupKeys m) :
    sumSizes m = sumSizes (hdel m k) + oldSizeOf m k := by
  induction m with
  | nil => simp [sumSizes, hdel, oldSizeOf, hget]
  | cons p rest ih =>
    have hp : ∀ b ∈ rest.map (fun q => q.1), p.1 ≠ b :=
      (List.pairwise_cons.mp h).1
    have hrest : NodupKeys rest := (List.pairwise_cons.mp h).2
    by_cases hpk : p.1 = k
    · have hfilter : hdel rest k = rest := by
        rw [hdel_eq_filter]
        refine List.filter_eq_self.mpr ?_
        intro q hq
        refine decide_eq_true ?_
        intro hqk
        exact hp q.1 (List.mem_map_of_mem _ hq) (by rw [hpk, hqk])
      rw [hdel_cons_hit p rest k hpk, hfilter, sumSizes_cons]
      unfold oldSizeOf
      rw [hget_cons_hit p rest k hpk]
      ring
    · have := ih hrest
      rw [hdel_cons_miss p rest k hpk, sumSizes_cons, sumSizes_cons]
      unfold oldSizeOf
      rw [hget_cons_miss p rest k hpk]
      unfold oldSizeOf at this
      rw [this]
      ring

/-- The live index is well-formed and its counter matches the entries. -/
def IndexInv (s : RedisState) : Prop :=
  NodupKeys s.liveItems ∧ get_total_bytes s = sumSizes s.liveItems

theorem indexInv_empty : IndexInv emptyState := by
  constructor
  · simp [NodupKeys, emptyState]
  · simp [get_total_bytes, sumSizes, emptyState]

theorem indexInv_applyOp (s : RedisState) (op : CacheOp) (h : IndexInv s) :
    IndexInv (applyOp s op) := by
  rcases h with ⟨hnd, htot⟩
  cases op with
  | add item =>
    refine ⟨nodupKeys_hset _ _ _ hnd, ?_⟩
    have hsplit := sumSizes_hdel_add s.liveItems item.cache_key hnd
    show (add_item s item).liveTotal.getD 0 = sumSizes (add_item s item).liveItems
    simp only [add_item, addToIndex]
    rw [hset_eq_hdel_append, sumSizes_append, sumSizes_cons]
    have holdeq : (match hget s.liveItems item.cache_key with
        | some old => (old.size_bytes : Int)
        | none => 0) = oldSizeOf s.liveItems item.cache_key := rfl
    simp only [Option.getD_some, sumSizes, List.map_nil, List.sum_nil, holdeq]
    rw [show s.liveTotal.getD 0 = sumSizes s.liveItems from htot, hsplit]
    simp only [sumSizes]
    ring
  | remove k =>
    rcases hh : hget s.liveItems k with _ | item
    · refine ⟨by simpa [applyOp, remove_item, hh] using hnd, ?_⟩
      simp [applyOp, remove_item, hh, htot]
    · have hsplit := sumSizes_hdel_add s.liveItems k hnd
      rw [show oldSizeOf s.liveItems k = (item.size_bytes : Int) by
        unfold oldSizeOf; rw [hh]] at hsplit
      refine ⟨by simpa [applyOp, remove_item, hh] using nodupKeys_hdel _ k hnd, ?_⟩
      show ((remove_item s k).2).liveTotal.getD 0 = sumSizes ((remove_item s k).2).liveItems
      simp only [remove_item, hh, Option.getD_some]
      rw [show s.liveTotal.getD 0 = sumSizes s.liveItems from htot, hsplit]
      ring

theorem indexInv_applyOps (ops : List CacheOp) : IndexInv (applyOps ops) := by
  unfold applyOps
  have : ∀ s, IndexInv s → IndexInv (ops.foldl applyOp s) := by
    induction ops with
    | nil => intro s h; exact h
    | cons op rest ih =>
      intro s h
      exact ih (applyOp s op) (indexInv_applyOp s op h)
  exact this emptyState indexInv_empty

/-! ### Swapper lemmas -/

theorem swap_failure_state (fails : Nat → Bool) (s : RedisState)
    (h : s.tempTotal.isSome) (hf : (atomic_index_swap fails s).1 = false) :
    ((atomic_index_swap fails s).2.liveItems = s.liveItems ∧
     (atomic_index_swap fails s).2.liveTotal = s.liveTotal) ∧
    ((atomic_index_swap fails s).2 = s ∨
     ((atomic_index_swap fails s).2.tempItems = [] ∧
      (atomic_index_swap fails s).2.tempTotal = none)) := by
  unfold atomic_index_swap swapFail at *
  have hnone : s.tempTotal.isNone = false := by
    rcases Option.isSome_iff_exists.mp h with ⟨v, hv⟩
    simp [hv]
  split_ifs at * <;> simp_all

theorem swap_success_state (s : RedisState) (h : s.tempTotal.isSome) :
    atomic_index_swap (fun _ => false) s =
      (true, { s with liveItems := s.tempItems,
                      liveTotal := some (s.tempTotal.getD 0),
                      tempItems := [], tempTotal := none }) := by
  rcases Option.isSome_iff_exists.mp h with ⟨v, hv⟩
  simp [atomic_index_swap, hv]

/-! ### Scanner lemmas -/

/-- The items-hash effect of the scan loop, isolated. -/
def scanItemsFold (m : List (String × CacheItem)) (files : List ScanFile) :
    List (String × CacheItem) :=
  files.foldl (fun acc f => hset acc f.stem (scanItem f)) m

theorem scanStep_items (files : List ScanFile)
    (m : List (String × CacheItem)) (t : Option Int) (n b : Nat) :
    (files.foldl scanStep (m, t, n, b)).1 =
      scanItemsFold m (files.filter scanValid) := by
  induction files generalizing m t n b with
  | nil => simp [scanItemsFold]
  | cons f rest ih =>
    by_cases hv : scanValid f
    · simp [scanStep, hv, List.filter_cons, scanItemsFold, addToIndex]
      exact ih _ _ _ _
    · simp [scanStep, hv, List.filter_cons, scanItemsFold]
      exact ih _ _ _ _

theorem scanStep_bytes (files : List ScanFile)
    (m : List (String × CacheItem)) (t : Option Int) (n b : Nat) :
    (files.foldl scanStep (m, t, n, b)).2.2.2 =
      b + ((files.filter scanValid).map (fun f => f.size_bytes)).sum := by
  induction files generalizing m t n b with
  | nil => simp
  | cons f rest ih =>
    by_cases hv : scanValid f
    · simp only [List.foldl, scanStep, hv, if_true, List.filter_cons]
      rw [ih]
      simp [hv]
      omega
    · simp only [List.foldl, scanStep, hv, if_false, List.filter_cons]
      rw [ih]
      simp [hv]

theorem scan_tempItems (files : List ScanFile) (s : RedisState) :
    (scan_cache_directory files s).2.tempItems =
      scanItemsFold [] (files.filter scanValid) := by
  unfold scan_cache_directory
  exact scanStep_items files [] (some 0) 0 0

theorem scan_tempTotal (files : List ScanFile) (s : RedisState) :
    (scan_cache_directory files s).2.tempTotal =
      some (((files.filter scanValid).map (fun f => f.size_bytes)).sum : Int) := by
  unfold scan_cache_directory
  rw [show ∀ r : (List (String × CacheItem) × Option Int × Nat × Nat),
    ({ s with tempItems := r.1, tempTotal := some (r.2.2.2 : Int) } : RedisState).tempTotal
      = some (r.2.2.2 : Int) from fun r => rfl]
  rw [scanStep_bytes files [] (some 0) 0 0]
  simp
  rfl

theorem nodupKeys_scanItemsFold (m : List (String × CacheItem))
    (files : List ScanFile) (h : NodupKeys m) :
    NodupKeys (scanItemsFold m files) := by
  induction files generalizing m with
  | nil => exact h
  | cons f rest ih =>
    exact ih _ (nodupKeys_hset _ _ _ h)

theorem keys_toFinset_hset (m : List (String × CacheItem)) (k : String)
    (v : CacheItem) :
    ((hset m k v).map (fun p => p.1)).toFinset =
      insert k ((m.map (fun p => p.1)).toFinset) := by
  rw [hset_eq_hdel_append, List.map_append, List.toFinset_append]
  ext a
  by_cases hak : a = k
  · simp [hak, hdel_eq_filter]
  · simp [hak, hdel_eq_filter, List.mem_filter]

theorem keys_toFinset_scanItemsFold (m : List (String × CacheItem))
    (files : List ScanFile) :
    ((scanItemsFold m files).map (fun p => p.1)).toFinset =
      (m.map (fun p => p.1)).toFinset ∪ (files.map (fun f => f.stem)).toFinset := by
  induction files generalizing m with
  | nil => simp [scanItemsFold]
  | cons f rest ih =>
    show ((scanItemsFold (hset m f.stem (scanItem f)) rest).map (fun p => p.1)).toFinset = _
    rw [ih, keys_toFinset_hset]
    ext a
    simp [or_assoc]

theorem length_scanItemsFold (files : List ScanFile) :
    (scanItemsFold [] files).length = (files.map (fun f => f.stem)).toFinset.card := by
  have hnd : NodupKeys (scanItemsFold [] files) :=
    nodupKeys_scanItemsFold [] files (by simp [NodupKeys])
  have hlen : (scanItemsFold [] files).length =
      ((scanItemsFold [] files).map (fun p => p.1)).length := by
    simp
  rw [hlen, ← List.toFinset_card_of_nodup hnd, keys_toFinset_scanItemsFold]
  simp

/-! ### Deletion-loop lemmas (index-mode cleaner) -/

theorem remove_cache_item_none (s : RedisState) (k : String)
    (hh : hget s.liveItems k = none) : remove_cache_item s k = (0, s) := by
  unfold remove_cache_item
  rw [hh]

theorem remove_cache_item_found (s : RedisState) (k : String) (it : CacheItem)
    (hh : hget s.liveItems k = some it) :
    remove_cache_item s k =
      (it.size_bytes,
       { s with liveItems := hdel s.liveItems k,
                liveTotal := some (s.liveTotal.getD 0 - (it.size_bytes : Int)) }) := by
  unfold remove_cache_item
  rw [hh]

theorem hget_ne_none_of_mem (m : List (String × CacheItem)) (k : String)
    (q : CacheItem) (h : (k, q) ∈ m) : ¬hget m k = none := by
  induction m with
  | nil => simp at h
  | cons p rest ih =>
    by_cases hpk : p.1 = k
    · rw [hget_cons_hit p rest k hpk]
      simp
    · rw [hget_cons_miss p rest k hpk]
      rcases List.mem_cons.mp h with heq | h2
      · rw [← heq] at hpk
        simp at hpk
      · exact ih h2

/-- Lemma: `remove_cache_item` never credits more bytes than it subtracts from
the live counter. -/
theorem remove_cache_item_total (s : RedisState) (k : String) :
    ((remove_cache_item s k).2.liveTotal.getD 0 : Int)
        + ((remove_cache_item s k).1 : Int)
      ≤ s.liveTotal.getD 0 := by
  unfold remove_cache_item
  rcases hget s.liveItems k with _ | item <;> simp

/-- Across the deletion loop, counter + freed never grows: every byte
counted as freed was also subtracted from the live counter. -/
theorem delLoop_total (u : String → Bool) (ab : Option Nat) (btf : Int)
    (items : List CacheItem) (a : DelAcc) :
    ((delLoop u ab btf items a).1.state.liveTotal.getD 0 : Int)
        + ((delLoop u ab btf items a).1.freed : Int)
      ≤ a.state.liveTotal.getD 0 + (a.freed : Int) := by
  induction items generalizing a with
  | nil => simp [delLoop]
  | cons item rest ih =>
    rw [delLoop]
    by_cases h1 : (a.freed : Int) ≥ btf
    · simp [h1]
    · rw [if_neg h1]
      by_cases h2 : ab = some a.processed
      · simp [h2]
      · rw [if_neg h2]
        by_cases h3 : u item.cache_key = true
        · rw [if_pos h3]
          refine le_trans (ih _) ?_
          have := remove_cache_item_total a.state item.cache_key
          simp only []
          omega
        · rw [if_neg h3]
          refine le_trans (ih _) ?_
          have := remove_cache_item_total a.state item.cache_key
          simp only []
          push_cast
          omega

/-- The loop processes a prefix of its input. -/
theorem delLoop_removed (u : String → Bool) (ab : Option Nat) (btf : Int)
    (items : List CacheItem) (a : DelAcc) :
    ∃ j, (delLoop u ab btf items a).1.removed = a.removed ++ items.take j := by
  induction items generalizing a with
  | nil => exact ⟨0, by simp [delLoop]⟩
  | cons item rest ih =>
    rw [delLoop]
    by_cases h1 : (a.freed : Int) ≥ btf
    · exact ⟨0, by simp [h1]⟩
    · rw [if_neg h1]
      by_cases h2 : ab = some a.processed
      · exact ⟨0, by simp [h2]⟩
      · rw [if_neg h2]
        by_cases h3 : u item.cache_key = true
        · rw [if_pos h3]
          rcases ih _ with ⟨j, hj⟩
          exact ⟨j + 1, by rw [hj]; simp⟩
        · rw [if_neg h3]
          rcases ih _ with ⟨j, hj⟩
          exact ⟨j + 1, by rw [hj]; simp⟩

/-- Entries that survive the loop were already present, and none of the
newly removed items carries their key. -/
theorem delLoop_survivors (u : String → Bool) (ab : Option Nat) (btf : Int)
    (items : List CacheItem) (a : DelAcc) (k : String) (q : CacheItem)
    (hmem : (k, q) ∈ (delLoop u ab btf items a).1.state.liveItems) :
    (k, q) ∈ a.state.liveItems ∧
      ∀ it ∈ (delLoop u ab btf items a).1.removed,
        it ∈ a.removed ∨ ¬it.cache_key = k := by
  induction items generalizing a with
  | nil =>
    simp only [delLoop] at hmem ⊢
    exact ⟨hmem, fun it hit => Or.inl hit⟩
  | cons item rest ih =>
    rw [delLoop] at hmem ⊢
    by_cases h1 : (a.freed : Int) ≥ btf
    · rw [if_pos h1] at hmem ⊢
      exact ⟨hmem, fun it hit => Or.inl hit⟩
    · rw [if_neg h1] at hmem ⊢
      by_cases h2 : ab = some a.processed
      · rw [if_pos h2] at hmem ⊢
        exact ⟨hmem, fun it hit => Or.inl hit⟩
      · rw [if_neg h2] at hmem ⊢
        have hstep : ∀ (s : RedisState),
            (k, q) ∈ (remove_cache_item s item.cache_key).2.liveItems →
            (k, q) ∈ s.liveItems ∧ ¬item.cache_key = k := by
          intro s hin
          rcases hh : hget s.liveItems item.cache_key with _ | found
          · rw [remove_cache_item_none s _ hh] at hin
            refine ⟨hin, ?_⟩
            intro hk
            exact hget_ne_none_of_mem s.liveItems k q hin (by rw [← hk]; exact hh)
          · rw [remove_cache_item_found s _ found hh] at hin
            simp only [hdel_eq_filter] at hin
            have hin2 := List.mem_filter.mp hin
            refine ⟨hin2.1, ?_⟩
            intro hk
            have := of_decide_eq_true hin2.2
            exact this (by rw [hk])
        by_cases h3 : u item.cache_key = true
        · rw [if_pos h3] at hmem ⊢
          rcases ih _ hmem with ⟨hmem2, hrem⟩
          rcases hstep _ hmem2 with ⟨hmem3, hkey⟩
          refine ⟨hmem3, fun it hit => ?_⟩
          rcases hrem it hit with hold | hnew
          · rcases List.mem_append.mp hold with h | h
            · exact Or.inl h
            · rcases List.mem_singleton.mp h with rfl
              exact Or.inr hkey
          · exact Or.inr hnew
        · rw [if_neg h3] at hmem ⊢
          rcases ih _ hmem with ⟨hmem2, hrem⟩
          rcases hstep _ hmem2 with ⟨hmem3, hkey⟩
          refine ⟨hmem3, fun it hit => ?_⟩
          rcases hrem it hit with hold | hnew
          · rcases List.mem_append.mp hold with h | h
            · exact Or.inl h
            · rcases List.mem_singleton.mp h with rfl
              exact Or.inr hkey
          · exact Or.inr hnew

theorem hget_hdel_ne (m : List (String × CacheItem)) (k k' : String)
    (hne : ¬k' = k) : hget (hdel m k) k' = hget m k' := by
  induction m with
  | nil => simp [hdel, hget]
  | cons p rest ih =>
    by_cases hpk : p.1 = k
    · rw [hdel_cons_hit p rest k hpk, ih,
        hget_cons_miss p rest k' (by rw [hpk]; intro h; exact hne h.symm)]
    · rw [hdel_cons_miss p rest k hpk]
      by_cases hpk' : p.1 = k'
      · rw [hget_cons_hit _ _ _ hpk', hget_cons_hit p rest k' hpk']
      · rw [hget_cons_miss _ _ _ hpk', hget_cons_miss p rest k' hpk', ih]

theorem hget_hdel_self (m : List (String × CacheItem)) (k : String) :
    hget (hdel m k) k = none := by
  induction m with
  | nil => simp [hdel, hget]
  | cons p rest ih =>
    by_cases hpk : p.1 = k
    · rw [hdel_cons_hit p rest k hpk]
      exact ih
    · rw [hdel_cons_miss p rest k hpk, hget_cons_miss _ _ _ hpk]
      exact ih

theorem hget_of_mem_nodup (m : List (String × CacheItem)) (k : String)
    (q : CacheItem) (hnd : NodupKeys m) (h : (k, q) ∈ m) :
    hget m k = some q := by
  induction m with
  | nil => simp at h
  | cons p rest ih =>
    have hp : ∀ b ∈ rest.map (fun r => r.1), p.1 ≠ b :=
      (List.pairwise_cons.mp hnd).1
    rcases List.mem_cons.mp h with heq | h2
    · rw [← heq]
      exact hget_cons_hit _ _ _ rfl
    · by_cases hpk : p.1 = k
      · exfalso
        have hk_mem : k ∈ rest.map (fun r => r.1) := by
          have := List.mem_map_of_mem (fun r : String × CacheItem => r.1) h2
          simpa using this
        exact (hp k hk_mem) hpk
      · rw [hget_cons_miss p rest k hpk]
        exact ih ((List.pairwise_cons.mp hnd).2) h2

/-- Every queued deletion candidate is either already gone from the
index or still stored with its snapshot metadata. -/
def ItemsOk (s : RedisState) (items : List CacheItem) : Prop :=
  ∀ it ∈ items,
    hget s.liveItems it.cache_key = none ∨
    hget s.liveItems it.cache_key = some it

theorem itemsOk_tail (s : RedisState) (it : CacheItem) (items : List CacheItem)
    (h : ItemsOk s (it :: items)) : ItemsOk s items :=
  fun x hx => h x (List.mem_cons_of_mem it hx)

theorem itemsOk_after_remove (s : RedisState) (items : List CacheItem)
    (kk : String) (h : ItemsOk s items) :
    ItemsOk (remove_cache_item s kk).2 items := by
  intro it hit
  rcases hh : hget s.liveItems kk with _ | found
  · rw [remove_cache_item_none s kk hh]
    exact h it hit
  · rw [remove_cache_item_found s kk found hh]
    by_cases hk : it.cache_key = kk
    · left
      show hget (hdel s.liveItems kk) it.cache_key = none
      rw [hk]
      exact hget_hdel_self s.liveItems kk
    · show hget (hdel s.liveItems kk) it.cache_key = none ∨
        hget (hdel s.liveItems kk) it.cache_key = some it
      rw [hget_hdel_ne s.liveItems kk it.cache_key hk]
      exact h it hit

/-- The size credited at each iteration is bounded by the snapshot size,
so in total the loop frees at most the summed size of its candidates. -/
theorem delLoop_freed_le (u : String → Bool) (ab : Option Nat) (btf : Int)
    (items : List CacheItem) (a : DelAcc) (hok : ItemsOk a.state items) :
    (delLoop u ab btf items a).1.freed ≤
      a.freed + (items.map (fun it => it.size_bytes)).sum := by
  induction items generalizing a with
  | nil => simp [delLoop]
  | cons item rest ih =>
    rw [delLoop]
    by_cases h1 : (a.freed : Int) ≥ btf
    · simp [h1]
    · rw [if_neg h1]
      by_cases h2 : ab = some a.processed
      · simp [h2]
      · rw [if_neg h2]
        have hsz : (remove_cache_item a.state item.cache_key).1 ≤ item.size_bytes := by
          rcases hok item (List.mem_cons_self item rest) with hnone | hsome
          · rw [remove_cache_item_none a.state _ hnone]
            exact Nat.zero_le _
          · rw [remove_cache_item_found a.state _ item hsome]
        have hok2 : ItemsOk (remove_cache_item a.state item.cache_key).2 rest :=
          itemsOk_after_remove _ _ _ (itemsOk_tail _ _ _ hok)
        by_cases h3 : u item.cache_key = true
        · rw [if_pos h3]
          have := ih { a with state := (remove_cache_item a.state item.cache_key).2,
                              removed := a.removed ++ [item],
                              processed := a.processed + 1 } hok2
          dsimp only at this
          simp only [List.map_cons, List.sum_cons]
          omega
        · rw [if_neg h3]
          have := ih { state := (remove_cache_item a.state item.cache_key).2,
                       freed := a.freed + (remove_cache_item a.state item.cache_key).1,
                       removed := a.removed ++ [item],
                       removedCount := if (remove_cache_item a.state item.cache_key).1 > 0
                         then a.removedCount + 1 else a.removedCount,
                       processed := a.processed + 1 } hok2
          dsimp only at this
          simp only [List.map_cons, List.sum_cons]
          omega

/-! ### Heap-cleaner lemmas (filesystem-mode) -/

/-- The deletion phase removes an order-preserving selection of its
candidate list and counts exactly the removed sizes. -/
theorem heapDelete_spec (u : String → Bool) (btf : Int) (cands : List FsFile)
    (rem : List FsFile) (fr : Nat) :
    ∃ newly : List FsFile, newly.Sublist cands ∧
      (heapDelete u btf cands (rem, fr)).1 = rem ++ newly ∧
      (heapDelete u btf cands (rem, fr)).2 =
        fr + (newly.map (fun f => f.size_bytes)).sum := by
  induction cands generalizing rem fr with
  | nil => exact ⟨[], by simp [heapDelete]⟩
  | cons f rest ih =>
    rw [heapDelete]
    by_cases h1 : (fr : Int) ≥ btf
    · rw [if_pos h1]
      exact ⟨[], List.nil_sublist _, by simp, by simp⟩
    · rw [if_neg h1]
      by_cases h2 : u f.path = true
      · rw [if_pos h2]
        rcases ih rem fr with ⟨newly, hs, hr, hf⟩
        exact ⟨newly, hs.cons f, hr, hf⟩
      · rw [if_neg h2]
        rcases ih (rem ++ [f]) (fr + f.size_bytes) with ⟨newly, hs, hr, hf⟩
        refine ⟨f :: newly, hs.cons₂ f, ?_, ?_⟩
        · rw [hr, List.append_assoc]
          rfl
        · rw [hf]
          simp only [List.map_cons, List.sum_cons]
          omega

/-- Every candidate held by the selection heap comes from the scan. -/
theorem heapSelect_subset (t : Int) (files : List FsFile) (heap : List FsFile)
    (acc : Int) :
    ∀ x ∈ (heapSelect t files heap acc).1, x ∈ heap ∨ x ∈ files := by
  induction files generalizing heap acc with
  | nil =>
    intro x hx
    rw [heapSelect] at hx
    exact Or.inl hx
  | cons f rest ih =>
    intro x hx
    rcases hheap : heap with _ | ⟨top, hs⟩
    · rw [hheap, heapSelect] at hx
      by_cases h1 : acc < t
      · rw [if_pos h1] at hx
        rcases ih _ _ x hx with hh | hr
        · rcases List.mem_cons.mp ((perm_insertSorted heapLe f []).mem_iff.mp hh) with
            rfl | hh2
          · exact Or.inr (List.mem_cons_self _ _)
          · simp at hh2
        · exact Or.inr (List.mem_cons_of_mem f hr)
      · rw [if_neg h1] at hx
        rcases ih _ _ x hx with hh | hr
        · simp at hh
        · exact Or.inr (List.mem_cons_of_mem f hr)
    · rw [hheap, heapSelect] at hx
      by_cases h1 : acc < t
      · rw [if_pos h1] at hx
        rcases ih _ _ x hx with hh | hr
        · rcases List.mem_cons.mp ((perm_insertSorted heapLe f (top :: hs)).mem_iff.mp hh) with
            rfl | hh2
          · exact Or.inr (List.mem_cons_self _ _)
          · exact Or.inl hh2
        · exact Or.inr (List.mem_cons_of_mem f hr)
      · rw [if_neg h1] at hx
        by_cases h2 : f.mtime < top.mtime
        · rw [if_pos h2] at hx
          rcases ih _ _ x hx with hh | hr
          · rcases List.mem_cons.mp ((perm_insertSorted heapLe f hs).mem_iff.mp hh) with
              rfl | hh2
            · exact Or.inr (List.mem_cons_self _ _)
            · exact Or.inl (List.mem_cons_of_mem top hh2)
          · exact Or.inr (List.mem_cons_of_mem f hr)
        · rw [if_neg h2] at hx
          rcases ih _ _ x hx with hh | hr
          · exact Or.inl hh
          · exact Or.inr (List.mem_cons_of_mem f hr)

/-- Paths of one file list. -/
@[reducible] def pmap (l : List FsFile) : List String :=
  l.map (fun f => f.path)

/-- Total size in bytes of one file list (`get_cache_size`). -/
def sizeSum (l : List FsFile) : Nat :=
  (l.map (fun f => f.size_bytes)).sum

theorem pmap_append (a b : List FsFile) : pmap (a ++ b) = pmap a ++ pmap b := by
  simp [pmap]

/-- The heap never holds two candidates with the same path, provided the
walked tree has no duplicate paths. -/
theorem heapSelect_nodup_paths (t : Int) (files : List FsFile)
    (heap : List FsFile) (acc : Int)
    (h : (pmap (heap ++ files)).Nodup) :
    (pmap (heapSelect t files heap acc).1).Nodup := by
  induction files generalizing heap acc with
  | nil =>
    rw [heapSelect]
    have h2 := h
    rw [List.append_nil] at h2
    exact h2
  | cons f rest ih =>
    have hperm : (pmap (heap ++ f :: rest)).Perm (pmap ((f :: heap) ++ rest)) :=
      (List.perm_middle : (heap ++ f :: rest).Perm ((f :: heap) ++ rest)).map _
    have hnodup_push : (pmap ((f :: heap) ++ rest)).Nodup := hperm.nodup_iff.mp h
    have hpush : (pmap (insertSorted heapLe f heap ++ rest)).Nodup := by
      have hperm2 : (pmap (insertSorted heapLe f heap ++ rest)).Perm
          (pmap ((f :: heap) ++ rest)) := by
        simp only [pmap, List.map_append]
        exact ((perm_insertSorted heapLe f heap).map _).append_right _
      exact hperm2.nodup_iff.mpr hnodup_push
    have hskip : (pmap (heap ++ rest)).Nodup := by
      have hsub : (pmap (heap ++ rest)).Sublist (pmap (heap ++ f :: rest)) := by
        simp only [pmap, List.map_append]
        exact ((List.sublist_cons_self f rest).map _).append_left _
      exact hsub.nodup h
    rcases hheap : heap with _ | ⟨top, hs⟩
    · rw [heapSelect]
      by_cases h1 : acc < t
      · rw [if_pos h1]
        exact ih _ _ (by simpa [hheap] using hpush)
      · rw [if_neg h1]
        exact ih _ _ (by simpa [hheap] using hskip)
    · rw [heapSelect]
      by_cases h1 : acc < t
      · rw [if_pos h1]
        exact ih _ _ (by simpa [hheap] using hpush)
      · rw [if_neg h1]
        by_cases h2 : f.mtime < top.mtime
        · rw [if_pos h2]
          refine ih _ _ ?_
          have hnodup1 : (pmap ((f :: (top :: hs)) ++ rest)).Nodup := by
            simpa [hheap] using hnodup_push
          have hsub : (pmap ((f :: hs) ++ rest)).Sublist
              (pmap ((f :: (top :: hs)) ++ rest)) := by
            simp only [pmap, List.map_cons, List.map_append, List.cons_append]
            exact List.Sublist.cons₂ _ (List.sublist_cons_self _ _)
          have hnodup2 : (pmap ((f :: hs) ++ rest)).Nodup := hsub.nodup hnodup1
          have hperm3 : (pmap (insertSorted heapLe f hs ++ rest)).Perm
              (pmap ((f :: hs) ++ rest)) := by
            simp only [pmap, List.map_append]
            exact ((perm_insertSorted heapLe f hs).map _).append_right _
          exact hperm3.nodup_iff.mpr hnodup2
        · rw [if_neg h2]
          exact ih _ _ (by simpa [hheap] using hskip)

theorem sum_le_of_subperm (l₁ l₂ : List Nat) (h : l₁.Subperm l₂) :
    l₁.sum ≤ l₂.sum := by
  obtain ⟨u, hu⟩ := Multiset.le_iff_exists_add.mp (Multiset.coe_le.mpr h)
  have hsum : (l₂ : Multiset Nat).sum = (l₁ : Multiset Nat).sum + u.sum := by
    rw [hu, Multiset.sum_add]
  simp only [Multiset.sum_coe] at hsum
  omega

/-- Splitting the cache size over deleted and surviving files. -/
theorem sum_sizes_split (files : List FsFile) (p : FsFile → Bool) :
    sizeSum (files.filter p) + sizeSum (files.filter (fun f => !p f)) =
      sizeSum files := by
  have hperm := List.filter_append_perm p files
  have h2 := (hperm.map (fun f => f.size_bytes)).sum_eq
  rw [List.map_append, List.sum_append] at h2
  exact h2

theorem subperm_map (f : α → β) (l₁ l₂ : List α) (h : l₁.Subperm l₂) :
    (l₁.map f).Subperm (l₂.map f) := by
  obtain ⟨l, hl1, hl2⟩ := h
  exact ⟨l.map f, hl1.map f, hl2.map f⟩

/-- The filesystem-mode cleaner either reaches the `CLEAN_TO` target or
frees fewer bytes than requested (which needs no deletion failure — the
bounded selection can under-collect). -/
theorem cleanup_fs_target (maxB cleanB : Nat) (u : String → Bool)
    (files : List FsFile) (hp : (pmap files).Nodup) :
    ((sizeSum (cleanup_cache_fs maxB cleanB u files).fsFiles : Nat) : Int) ≤ cleanB ∨
    ((cleanup_cache_fs maxB cleanB u files).freed : Int) <
      ((sizeSum files : Nat) : Int) - cleanB := by
  by_cases hsz : (files.map (fun f => f.size_bytes)).sum < maxB
  · simp only [cleanup_cache_fs, if_pos hsz]
    by_cases hcl : sizeSum files ≤ cleanB
    · left
      dsimp only
      exact_mod_cast hcl
    · right
      dsimp only
      omega
  · simp only [cleanup_cache_fs, if_neg hsz]
    obtain ⟨newly, hsub, hrem, hfreed⟩ :=
      heapDelete_spec u ((((files.map (fun f => f.size_bytes)).sum : Nat) : Int) - (cleanB : Int))
        (sortLe delLe (heapSelect (targetAccumulated
          ((((files.map (fun f => f.size_bytes)).sum : Nat) : Int) - (cleanB : Int))) files [] 0).1)
        [] 0
    rw [hrem, hfreed]
    simp only [List.nil_append, Nat.zero_add]
    by_cases hfull : ((((newly.map (fun f => f.size_bytes)).sum : Nat) : Int)) ≥
        ((((files.map (fun f => f.size_bytes)).sum : Nat) : Int)) - cleanB
    · left
      -- the deleted files inject into the filter over their paths
      have hnodup_sel : ((heapSelect (targetAccumulated
          ((((files.map (fun f => f.size_bytes)).sum : Nat) : Int) - (cleanB : Int)))
            files [] 0).1.map (fun f => f.path)).Nodup :=
        heapSelect_nodup_paths _ files [] 0 (by simpa [pmap] using hp)
      have hnodup_cands : ((sortLe delLe (heapSelect (targetAccumulated
          ((((files.map (fun f => f.size_bytes)).sum : Nat) : Int) - (cleanB : Int)))
            files [] 0).1).map (fun f => f.path)).Nodup :=
        (((perm_sortLe delLe _).map (fun f => f.path))).nodup_iff.mpr hnodup_sel
      have hnodup_newly : (newly.map (fun f => f.path)).Nodup :=
        (hsub.map (fun f => f.path)).nodup hnodup_cands
      have hmem_files : ∀ x ∈ newly, x ∈ files := by
        intro x hx
        have hx2 := (perm_sortLe delLe _).mem_iff.mp (hsub.subset hx)
        rcases heapSelect_subset _ files [] 0 x hx2 with hh | hh
        · simp at hh
        · exact hh
      have hsubset : ∀ x ∈ newly,
          x ∈ files.filter (fun f => (newly.map (fun d => d.path)).contains f.path) := by
        intro x hx
        refine List.mem_filter.mpr ⟨hmem_files x hx, ?_⟩
        have hxp : x.path ∈ newly.map (fun d => d.path) := List.mem_map_of_mem _ hx
        exact List.elem_eq_true_of_mem hxp
      have hsubperm : newly.Subperm
          (files.filter (fun f => (newly.map (fun d => d.path)).contains f.path)) :=
        (hnodup_newly.of_map).subperm hsubset
      have hsum_le : (newly.map (fun f => f.size_bytes)).sum ≤
          sizeSum (files.filter (fun f => (newly.map (fun d => d.path)).contains f.path)) :=
        sum_le_of_subperm _ _ (subperm_map _ _ _ hsubperm)
      have hsplit := sum_sizes_split files
        (fun f => (newly.map (fun d => d.path)).contains f.path)
      have hdef : sizeSum files = (files.map (fun f => f.size_bytes)).sum := rfl
      omega
    · right
      have hdef : sizeSum files = (files.map (fun f => f.size_bytes)).sum := rfl
      omega

/-- The filesystem-mode cleaner deletes in nondecreasing age order. -/
theorem cleanup_fs_removed_sorted (maxB cleanB : Nat) (u : String → Bool)
    (files : List FsFile) :
    (cleanup_cache_fs maxB cleanB u files).removed.Pairwise
      (fun a b => a.mtime ≤ b.mtime) := by
  by_cases hsz : (files.map (fun f => f.size_bytes)).sum < maxB
  · simp only [cleanup_cache_fs, if_pos hsz]
    exact List.Pairwise.nil
  · simp only [cleanup_cache_fs, if_neg hsz]
    obtain ⟨newly, hsub, hrem, hfreed⟩ :=
      heapDelete_spec u ((((files.map (fun f => f.size_bytes)).sum : Nat) : Int) - (cleanB : Int))
        (sortLe delLe (heapSelect (targetAccumulated
          ((((files.map (fun f => f.size_bytes)).sum : Nat) : Int) - (cleanB : Int))) files [] 0).1)
        [] 0
    rw [hrem]
    simp only [List.nil_append]
    exact (pairwise_sortDel _).sublist hsub

/-! ### Index-cleaner consequences -/

theorem target_le_threshold (maxC : Nat) :
    cleanupTargetSize maxC ≤ cleanupThresholdSize maxC := by
  unfold cleanupTargetSize cleanupThresholdSize
  omega

/-- The index-mode cleaner reaches the low-watermark target or frees
fewer bytes than requested. -/
theorem cleanup_cache_reaches_target (u : String → Bool) (ab : Option Nat)
    (maxC : Nat) (s : RedisState) :
    get_total_bytes (cleanup_cache id u ab maxC s).state ≤
        ((cleanupTargetSize maxC : Nat) : Int) ∨
    ((cleanup_cache id u ab maxC s).freed : Int) <
      get_total_bytes s - ((cleanupTargetSize maxC : Nat) : Int) := by
  have hTT := target_le_threshold maxC
  simp only [cleanup_cache, id_eq]
  split_ifs with h1 h2 h3
  · dsimp only
    by_cases h : get_total_bytes s ≤ ((cleanupTargetSize maxC : Nat) : Int)
    · exact Or.inl h
    · right
      unfold get_total_bytes at *
      omega
  · dsimp only
    right
    unfold get_total_bytes at *
    omega
  · dsimp only
    right
    have hs1tot : ({ s with lock := some "cleanup_service" } : RedisState).liveTotal.getD 0
        = s.liveTotal.getD 0 := rfl
    unfold get_total_bytes at *
    omega
  · dsimp only
    have hT := delLoop_total u ab
      (get_total_bytes { s with lock := some "cleanup_service" } -
        ((cleanupTargetSize maxC : Nat) : Int))
      (get_oldest_items { s with lock := some "cleanup_service" } 1000)
      ⟨{ s with lock := some "cleanup_service" }, 0, [], 0, 0⟩
    dsimp only at hT
    set r := delLoop u ab
      (get_total_bytes { s with lock := some "cleanup_service" } -
        ((cleanupTargetSize maxC : Nat) : Int))
      (get_oldest_items { s with lock := some "cleanup_service" } 1000)
      ⟨{ s with lock := some "cleanup_service" }, 0, [], 0, 0⟩ with hr
    have hs1tot : ({ s with lock := some "cleanup_service" } : RedisState).liveTotal.getD 0
        = s.liveTotal.getD 0 := rfl
    have hfinal : ({ r.1.state with lock := none } : RedisState).liveTotal.getD 0
        = r.1.state.liveTotal.getD 0 := rfl
    by_cases hfull : (r.1.freed : Int) ≥
        get_total_bytes { s with lock := some "cleanup_service" } -
          ((cleanupTargetSize maxC : Nat) : Int)
    · left
      have hgoal : r.1.state.liveTotal.getD 0 ≤ ((cleanupTargetSize maxC : Nat) : Int) := by
        unfold get_total_bytes at *
        omega
      exact hgoal
    · right
      unfold get_total_bytes at *
      omega

/-- The index-mode cleaner never removes an entry while the surviving
index keeps a strictly older entry, provided each entry is stored under
its own cache key. -/
theorem cleanup_cache_age_order (u : String → Bool) (ab : Option Nat)
    (maxC : Nat) (s : RedisState) (hw : WellKeyed s.liveItems) :
    ∀ it ∈ (cleanup_cache id u ab maxC s).removed,
      ∀ p ∈ (cleanup_cache id u ab maxC s).state.liveItems,
        it.downloaded_at ≤ p.2.downloaded_at := by
  simp only [cleanup_cache, id_eq]
  split_ifs with h1 h2 h3
  · intro it hit
    simp at hit
  · intro it hit
    simp at hit
  · intro it hit
    simp at hit
  · dsimp only
    intro it hit p hp
    set s1 : RedisState := { s with lock := some "cleanup_service" } with hs1
    obtain ⟨j, hj⟩ := delLoop_removed u ab
      (get_total_bytes s1 - ((cleanupTargetSize maxC : Nat) : Int))
      (get_oldest_items s1 1000) ⟨s1, 0, [], 0, 0⟩
    dsimp only at hj
    rw [List.nil_append] at hj
    have hsurv := delLoop_survivors u ab
      (get_total_bytes s1 - ((cleanupTargetSize maxC : Nat) : Int))
      (get_oldest_items s1 1000) ⟨s1, 0, [], 0, 0⟩ p.1 p.2
      (by simpa using hp)
    dsimp only at hsurv
    rcases hsurv with ⟨hpmem, hkeys⟩
    -- the removed items are the prefix of the age-sorted index
    have hremoved : (delLoop u ab
        (get_total_bytes s1 - ((cleanupTargetSize maxC : Nat) : Int))
        (get_oldest_items s1 1000) ⟨s1, 0, [], 0, 0⟩).1.removed =
        ((sortLe ageLe s.liveItems).take (min j 1000)).map (fun q => q.2) := by
      rw [hj]
      show List.take j (((sortLe ageLe s1.liveItems).take 1000).map (fun q => q.2)) = _
      rw [← List.map_take, List.take_take]
    rw [hremoved] at hit hkeys
    rcases List.mem_map.mp hit with ⟨pr, hpr_mem, hpr_eq⟩
    -- the surviving pair sits in the dropped part of the sorted index
    have hp_sorted : p ∈ sortLe ageLe s.liveItems :=
      (perm_sortLe ageLe s.liveItems).mem_iff.mpr hpmem
    have hp_drop : p ∈ (sortLe ageLe s.liveItems).drop (min j 1000) := by
      rcases (List.mem_append.mp (by
        rw [List.take_append_drop]
        exact hp_sorted : p ∈ (sortLe ageLe s.liveItems).take (min j 1000) ++
          (sortLe ageLe s.liveItems).drop (min j 1000))) with htk | hdr
      · exfalso
        have hp_in_removed : p.2 ∈
            ((sortLe ageLe s.liveItems).take (min j 1000)).map (fun q => q.2) :=
          List.mem_map_of_mem _ htk
        have hkey : p.2.cache_key = p.1 := hw p hpmem
        rcases hkeys p.2 hp_in_removed with habs | hne
        · simp at habs
        · exact hne hkey
      · exact hdr
    have hpair := List.pairwise_append.mp (by
      rw [List.take_append_drop]
      exact pairwise_sortAge s.liveItems :
        ((sortLe ageLe s.liveItems).take (min j 1000) ++
         (sortLe ageLe s.liveItems).drop (min j 1000)).Pairwise
          (fun a b => a.2.downloaded_at ≤ b.2.downloaded_at))
    have := hpair.2.2 pr hpr_mem p hp_drop
    rw [hpr_eq] at this
    exact this

/-- The index-mode cleaner deletes in nondecreasing age order. -/
theorem cleanup_cache_removed_sorted (u : String → Bool) (ab : Option Nat)
    (maxC : Nat) (s : RedisState) :
    (cleanup_cache id u ab maxC s).removed.Pairwise
      (fun a b => a.downloaded_at ≤ b.downloaded_at) := by
  simp only [cleanup_cache, id_eq]
  split_ifs with h1 h2 h3
  · exact List.Pairwise.nil
  · exact List.Pairwise.nil
  · exact List.Pairwise.nil
  · dsimp only
    set s1 : RedisState := { s with lock := some "cleanup_service" } with hs1
    obtain ⟨j, hj⟩ := delLoop_removed u ab
      (get_total_bytes s1 - ((cleanupTargetSize maxC : Nat) : Int))
      (get_oldest_items s1 1000) ⟨s1, 0, [], 0, 0⟩
    dsimp only at hj
    rw [List.nil_append] at hj
    rw [hj]
    have hsorted : ((sortLe ageLe s1.liveItems).take 1000).Pairwise
        (fun a b => a.2.downloaded_at ≤ b.2.downloaded_at) :=
      (pairwise_sortAge s1.liveItems).sublist (List.take_sublist 1000 _)
    have hmapped : (get_oldest_items s1 1000).Pairwise
        (fun a b => a.downloaded_at ≤ b.downloaded_at) := by
      unfold get_oldest_items
      exact List.pairwise_map.mpr hsorted
    exact hmapped.sublist (List.take_sublist j _)

/-- C10 core: one index-cleaner pass draws from at most the 1000 oldest
entries. -/
theorem cleanup_cache_bounded (u : String → Bool) (ab : Option Nat)
    (maxC : Nat) (s : RedisState) (hw : WellKeyed s.liveItems)
    (hnd : NodupKeys s.liveItems) :
    (cleanup_cache id u ab maxC s).removed.length ≤ 1000 ∧
    (∃ j, (cleanup_cache id u ab maxC s).removed =
      (get_oldest_items s 1000).take j) ∧
    (cleanup_cache id u ab maxC s).freed ≤
      ((get_oldest_items s 1000).map (fun it => it.size_bytes)).sum := by
  simp only [cleanup_cache, id_eq]
  split_ifs with h1 h2 h3
  · exact ⟨by simp, ⟨0, by simp⟩, by simp⟩
  · exact ⟨by simp, ⟨0, by simp⟩, by simp⟩
  · exact ⟨by simp, ⟨0, by simp⟩, by simp⟩
  · dsimp only
    set s1 : RedisState := { s with lock := some "cleanup_service" } with hs1
    obtain ⟨j, hj⟩ := delLoop_removed u ab
      (get_total_bytes s1 - ((cleanupTargetSize maxC : Nat) : Int))
      (get_oldest_items s1 1000) ⟨s1, 0, [], 0, 0⟩
    dsimp only at hj
    rw [List.nil_append] at hj
    have hok : ItemsOk s1 (get_oldest_items s1 1000) := by
      intro it hit
      rcases List.mem_map.mp hit with ⟨pr, hpr, hpr_eq⟩
      have hpr_sorted : pr ∈ sortLe ageLe s1.liveItems :=
        (List.take_sublist 1000 _).subset hpr
      have hpr_live : pr ∈ s.liveItems :=
        (perm_sortLe ageLe s1.liveItems).mem_iff.mp hpr_sorted
      right
      have hkey : pr.2.cache_key = pr.1 := hw pr hpr_live
      rw [← hpr_eq, hkey]
      exact hget_of_mem_nodup s.liveItems pr.1 pr.2 hnd
        (by rcases pr with ⟨k, q⟩; exact hpr_live)
    have hfl := delLoop_freed_le u ab
      (get_total_bytes s1 - ((cleanupTargetSize maxC : Nat) : Int))
      (get_oldest_items s1 1000) ⟨s1, 0, [], 0, 0⟩ hok
    dsimp only at hfl
    have hsame : get_oldest_items s1 1000 = get_oldest_items s 1000 := rfl
    refine ⟨?_, ⟨j, hj⟩, ?_⟩
    · rw [hj]
      calc (List.take j (get_oldest_items s1 1000)).length
          ≤ (get_oldest_items s1 1000).length := (List.take_sublist j _).length_le
        _ ≤ 1000 := by
            unfold get_oldest_items
            rw [List.length_map]
            exact List.length_take_le 1000 _
    · rw [← hsame]
      omega

/-! ### Claim theorems -/

/-- C1: for every sequence of successful `add_item`/`remove_item` calls
executed sequentially against a store with no failures, starting from an
empty index, `get_total_bytes()` equals the sum of `size_bytes` over the
entries currently present in the items map; in particular re-adding an
existing cache key adjusts the counter by the size delta and never
double-counts (the upsert case is covered because `CacheOp.add` on a
present key replaces it and the invariant still holds). -/
theorem total_bytes_invariant (ops : List CacheOp) :
    get_total_bytes (applyOps ops) = sumSizes (applyOps ops).liveItems :=
  (indexInv_applyOps ops).2

/-- C2: if `atomic_index_swap` fails (returns `False`) on a state with a
completed shadow scan (the temp counter key exists), the live index —
both the entries map and the byte counter — is exactly as it was before
the swap attempt, never a mixture of generations; and the shadow keys are
cleaned up (unless the store rejected even the cleanup `DEL`, in which
case the whole state is untouched). -/
theorem swap_failure_leaves_live_intact (fails : Nat → Bool) (s : RedisState)
    (h : s.tempTotal.isSome) (hf : (atomic_index_swap fails s).1 = false) :
    ((atomic_index_swap fails s).2.liveItems = s.liveItems ∧
     (atomic_index_swap fails s).2.liveTotal = s.liveTotal) ∧
    ((atomic_index_swap fails s).2 = s ∨
     ((atomic_index_swap fails s).2.tempItems = [] ∧
      (atomic_index_swap fails s).2.tempTotal = none)) :=
  swap_failure_state fails s h hf

/-- C2 witness: a failing swap (every store call raises) over a concrete
post-scan state leaves the live index untouched. -/
theorem swap_failure_leaves_live_intact_witness :
    (((atomic_index_swap (fun _ => true) c2FailState).2.liveItems =
        c2FailState.liveItems ∧
      (atomic_index_swap (fun _ => true) c2FailState).2.liveTotal =
        c2FailState.liveTotal) ∧
     ((atomic_index_swap (fun _ => true) c2FailState).2 = c2FailState ∨
      ((atomic_index_swap (fun _ => true) c2FailState).2.tempItems = [] ∧
       (atomic_index_swap (fun _ => true) c2FailState).2.tempTotal = none))) :=
  swap_failure_leaves_live_intact (fun _ => true) c2FailState (by decide) (by decide)

/-- C3 counterexample: a cache tree holding the same stem under two
extensions (`x.jpg`, `x.png`) has 2 validly named files, but after
Scanner+Swapper `get_item_count()` is 1 (the second file replaced the
first under the same cache key), refuting "`get_item_count()` equals the
number of files whose stem yields a validly formatted MBID".  The byte
total still counts both files (10 + 20 = 30). -/
theorem scan_swap_count_counterexample :
    get_item_count (scanThenSwap cexScanFiles emptyState).2 = 1 ∧
    (cexScanFiles.filter scanValid).length = 2 ∧
    get_total_bytes (scanThenSwap cexScanFiles emptyState).2 = 30 := by
  decide

/-- C3 amended: after `scan_cache_directory` followed by a successful
`atomic_index_swap`, `get_item_count()` equals the number of **distinct
cache keys** (file stems) among the validly named files — equal to the
file count when stems are distinct — and `get_total_bytes()` equals the
sum of all validly named files' sizes; malformed names contribute to
neither. -/
theorem scan_swap_round_trip (files : List ScanFile) (s : RedisState) :
    (scanThenSwap files s).1 = true ∧
    get_item_count (scanThenSwap files s).2 =
      ((files.filter scanValid).map (fun f => f.stem)).toFinset.card ∧
    get_total_bytes (scanThenSwap files s).2 =
      ((((files.filter scanValid).map (fun f => f.size_bytes)).sum : Nat) : Int) := by
  have hsome : (scan_cache_directory files s).2.tempTotal.isSome := by
    rw [scan_tempTotal]
    rfl
  unfold scanThenSwap
  rw [swap_success_state _ hsome]
  refine ⟨rfl, ?_, ?_⟩
  · show (scan_cache_directory files s).2.tempItems.length = _
    rw [scan_tempItems, length_scanItemsFold]
  · show (((scan_cache_directory files s).2.tempTotal.getD 0 : Int)) = _
    rw [scan_tempTotal]
    simp only [Option.getD_some]
    push_cast
    rw [List.map_map]
    rfl

/-- C5 (code bug): for the documented example identifier `ebe78b00-…`,
the shared `get_cache_subdir` helper produces second shard level
`mbid[1:3] = "be"`, while its caller's docstring, the spec, and the
independent inline implementation in `src/app.py` all use the first two
characters `"eb"`; the two path codecs in the repository disagree. -/
theorem cache_subdir_second_level_bug :
    validate_mbid mbidEbe = true ∧
    get_cache_subdir "release" mbidEbe = ["release", "e", "be", "ebe"] ∧
    appCachePathDirs "release" mbidEbe = ["release", "e", "eb", "ebe"] ∧
    ¬get_cache_subdir "release" mbidEbe = appCachePathDirs "release" mbidEbe ∧
    (get_cache_path emptyFs "release" mbidEbe ".jpg").1 =
      ["release", "e", "be", "ebe", mbidEbe ++ ".jpg"] := by
  decide

/-- C8 counterexample: a store state whose items map is non-empty but
whose byte-counter key is absent makes `exists()` return false, refuting
"true iff the index contains at least one entry". -/
theorem exists_index_counterexample :
    existsIndex c8State = false ∧ ¬c8State.liveItems = [] := by
  decide

/-- C8 amended: for every store state, `exists()` returns true iff the
items map is non-empty **and** the byte-counter key is present (after any
`add_item` or swap the counter key exists, so there the original claim
holds). -/
theorem exists_index_iff (s : RedisState) :
    existsIndex s = true ↔ (¬s.liveItems = [] ∧ s.liveTotal.isSome = true) := by
  unfold existsIndex
  rcases hl : s.liveItems with _ | ⟨p, rest⟩ <;>
    rcases ht : s.liveTotal with _ | v <;>
    simp [hl, ht]

/-- C9 counterexample: computing the on-disk path is not free of
filesystem effects — `get_cache_path` runs
`mkdir(parents=True, exist_ok=True)`, so on a filesystem without the
shard directories it changes the directory set. -/
theorem cache_path_mkdir_counterexample :
    ¬(get_cache_path emptyFs "release" mbidEbe ".jpg").2 = emptyFs := by
  decide

/-- C9 amended: `generate_cache_key` is pure, and `get_cache_path`'s only
external effect is creating the (idempotent) shard directory chain: it
never touches files, its result is independent of the filesystem state,
and existing directories are preserved. -/
theorem cache_path_effects (fs fs2 : CacheFs) (ct key ext : String) :
    (get_cache_path fs ct key ext).2.fileData = fs.fileData ∧
    (get_cache_path fs ct key ext).1 = (get_cache_path fs2 ct key ext).1 ∧
    ∀ d ∈ fs.dirs, d ∈ (get_cache_path fs ct key ext).2.dirs := by
  refine ⟨rfl, rfl, ?_⟩
  intro d hd
  show d ∈ (dirChain (get_cache_subdir ct (mbidOfKey key))).foldl insertDir fs.dirs
  generalize dirChain (get_cache_subdir ct (mbidOfKey key)) = l
  induction l generalizing fs with
  | nil => exact hd
  | cons x xs ih =>
    show d ∈ xs.foldl insertDir (insertDir fs.dirs x)
    have hd2 : d ∈ insertDir fs.dirs x := by
      unfold insertDir
      split
      · exact hd
      · exact List.mem_append_left _ hd
    exact ih ⟨insertDir fs.dirs x, fs.fileData⟩ hd2

/-- C9 witness: a pre-existing directory survives a `get_cache_path`
call on a concrete filesystem. -/
theorem cache_path_effects_witness :
    ["x"] ∈ (get_cache_path oneDirFs "release" mbidEbe ".jpg").2.dirs :=
  (cache_path_effects oneDirFs emptyFs "release" mbidEbe ".jpg").2.2 ["x"] (by decide)

/-- C4 counterexample: a 146-byte population over a 100-byte limit with
an 80-byte target.  One filesystem-mode Evictor run with **no** deletion
failures frees only 61 of the requested 66 bytes, leaves usage at 85 >
80, and removes file `d` (mtime 95) while keeping the strictly older
file `a` (mtime 10) — refuting both the sufficiency disjunction and the
oldest-first-relative-to-kept guarantee. -/
theorem evictor_sufficiency_counterexample :
    sizeSum cexFiles = 146 ∧
    (cleanup_cache_fs 100 80 (fun _ => false) cexFiles).removed.map
      (fun f => f.path) = ["c", "d"] ∧
    (cleanup_cache_fs 100 80 (fun _ => false) cexFiles).freed = 61 ∧
    sizeSum (cleanup_cache_fs 100 80 (fun _ => false) cexFiles).fsFiles = 85 ∧
    fileA ∈ (cleanup_cache_fs 100 80 (fun _ => false) cexFiles).fsFiles ∧
    fileD ∈ (cleanup_cache_fs 100 80 (fun _ => false) cexFiles).removed ∧
    fileA.mtime < fileD.mtime := by
  decide

/-- C4 amended: one Evictor run either brings usage down to at most the
low-watermark target or frees less than requested (which can happen with
no deletion failure at all, through the 1000-candidate cap or the
bounded-heap under-collection); the index-mode Evictor additionally never
removes an entry while keeping a strictly older one (on a well-keyed
index), while the filesystem-mode Evictor does not guarantee age order
relative to kept files. -/
theorem evictor_sufficiency_amended :
    (∀ (u : String → Bool) (ab : Option Nat) (maxC : Nat) (s : RedisState),
       get_total_bytes (cleanup_cache id u ab maxC s).state ≤
           ((cleanupTargetSize maxC : Nat) : Int) ∨
       ((cleanup_cache id u ab maxC s).freed : Int) <
         get_total_bytes s - ((cleanupTargetSize maxC : Nat) : Int)) ∧
    (∀ (u : String → Bool) (ab : Option Nat) (maxC : Nat) (s : RedisState),
       WellKeyed s.liveItems →
       ∀ it ∈ (cleanup_cache id u ab maxC s).removed,
         ∀ p ∈ (cleanup_cache id u ab maxC s).state.liveItems,
           it.downloaded_at ≤ p.2.downloaded_at) ∧
    (∀ (maxB cleanB : Nat) (u : String → Bool) (files : List FsFile),
       (pmap files).Nodup →
       ((sizeSum (cleanup_cache_fs maxB cleanB u files).fsFiles : Nat) : Int) ≤
           cleanB ∨
       ((cleanup_cache_fs maxB cleanB u files).freed : Int) <
         ((sizeSum files : Nat) : Int) - cleanB) :=
  ⟨cleanup_cache_reaches_target, cleanup_cache_age_order, cleanup_fs_target⟩

/-- C4 witness: on the concrete four-entry index the removed entry `c`
(age 5) is no younger than the surviving entry `b` (age 90). -/
theorem evictor_sufficiency_amended_witness :
    itemC.downloaded_at ≤ itemB.downloaded_at :=
  evictor_sufficiency_amended.2.1 (fun _ => false) none 89 cexIndexState
    (by unfold WellKeyed; decide) itemC (by decide) ("b", itemB) (by decide)

/-- Lemma: each index-mode cleaner cycle checks the high-watermark first
(below it, nothing else happens — no lock attempt); a failed lock
acquisition performs no deletions and returns without error; a successful
acquisition re-checks the high-watermark before any deletion work (if the
re-check is below threshold nothing is removed), and the lock is released
at the end of every acquired cycle — the trace always ends in `release`,
and the final state holds no lock — including runs where the deletion
loop raises (`ab`). -/
theorem cleanup_lock_discipline_index (g : RedisState → RedisState)
    (u : String → Bool) (ab : Option Nat) (maxC : Nat) (s : RedisState) :
    (get_total_bytes s ≤ ((cleanupThresholdSize maxC : Nat) : Int) →
       cleanup_cache g u ab maxC s = ⟨s, [.checkSize], 0, [], false⟩) ∧
    (¬get_total_bytes s ≤ ((cleanupThresholdSize maxC : Nat) : Int) →
     s.lock.isSome = true →
       cleanup_cache g u ab maxC s = ⟨s, [.checkSize, .acquireFail], 0, [], false⟩) ∧
    (¬get_total_bytes s ≤ ((cleanupThresholdSize maxC : Nat) : Int) →
     s.lock = none →
       ((cleanup_cache g u ab maxC s).trace =
          [.checkSize, .acquireOk, .recheck] ++
            (cleanup_cache g u ab maxC s).removed.map
              (fun it => Event.removeItem it.cache_key) ++ [.release] ∧
        (cleanup_cache g u ab maxC s).state.lock = none ∧
        (get_total_bytes (g { s with lock := some "cleanup_service" }) ≤
            ((cleanupThresholdSize maxC : Nat) : Int) →
          (cleanup_cache g u ab maxC s).removed = []))) := by
  refine ⟨?_, ?_, ?_⟩
  · intro h1
    simp only [cleanup_cache, if_pos h1]
  · intro h1 h2
    simp only [cleanup_cache, if_neg h1, h2, if_true]
  · intro h1 h2
    have h2s : s.lock.isSome = false := by
      rw [h2]
      rfl
    simp only [cleanup_cache, if_neg h1, h2s, Bool.false_eq_true, if_false]
    by_cases h3 : get_total_bytes (g { s with lock := some "cleanup_service" }) ≤
        ((cleanupThresholdSize maxC : Nat) : Int)
    · rw [if_pos h3]
      exact ⟨rfl, rfl, fun _ => rfl⟩
    · rw [if_neg h3]
      exact ⟨rfl, rfl, fun hcontra => absurd hcontra h3⟩

/-- C6 counterexample: one filesystem-mode Evictor cycle over the
above-watermark population (146 bytes against a 100-byte limit), run
while **another process holds the cleanup lock**, still deletes files —
it never attempts lock acquisition and leaves the lock key untouched —
refuting "each Evictor cycle ... then attempts lock acquisition; if
acquisition fails it performs no deletions" over the claim's cited
filesystem-mode scope. -/
theorem cleanup_lock_counterexample :
    sizeSum cexFiles = 146 ∧
    ¬sizeSum cexFiles < 100 ∧
    (cleanup_cache_fs_cycle (some "another_process") 100 80
      (fun _ => false) cexFiles).1.removed.map (fun f => f.path) = ["c", "d"] ∧
    ¬(cleanup_cache_fs_cycle (some "another_process") 100 80
      (fun _ => false) cexFiles).1.removed = [] ∧
    (cleanup_cache_fs_cycle (some "another_process") 100 80
      (fun _ => false) cexFiles).2 = some "another_process" := by
  decide

/-- C6 amended: the **index-mode** Evictor cycle first checks the
high-watermark, then attempts lock acquisition; if acquisition fails it
performs no deletions and returns without error; if it succeeds it
re-checks the high-watermark before doing any deletion work, and the
lock is released on every exit path of the cleanup, including
exceptions.  The **filesystem-mode** Evictor checks only the watermark
and acquires no lock: its deletions are independent of the cleanup-lock
state, which it never reads or writes. -/
theorem cleanup_lock_discipline_amended :
    (∀ (g : RedisState → RedisState) (u : String → Bool) (ab : Option Nat)
       (maxC : Nat) (s : RedisState),
      (get_total_bytes s ≤ ((cleanupThresholdSize maxC : Nat) : Int) →
         cleanup_cache g u ab maxC s = ⟨s, [.checkSize], 0, [], false⟩) ∧
      (¬get_total_bytes s ≤ ((cleanupThresholdSize maxC : Nat) : Int) →
       s.lock.isSome = true →
         cleanup_cache g u ab maxC s =
           ⟨s, [.checkSize, .acquireFail], 0, [], false⟩) ∧
      (¬get_total_bytes s ≤ ((cleanupThresholdSize maxC : Nat) : Int) →
       s.lock = none →
         ((cleanup_cache g u ab maxC s).trace =
            [.checkSize, .acquireOk, .recheck] ++
              (cleanup_cache g u ab maxC s).removed.map
                (fun it => Event.removeItem it.cache_key) ++ [.release] ∧
          (cleanup_cache g u ab maxC s).state.lock = none ∧
          (get_total_bytes (g { s with lock := some "cleanup_service" }) ≤
              ((cleanupThresholdSize maxC : Nat) : Int) →
            (cleanup_cache g u ab maxC s).removed = [])))) ∧
    (∀ (lock lock2 : Option String) (maxB cleanB : Nat) (u : String → Bool)
       (files : List FsFile),
      (cleanup_cache_fs_cycle lock maxB cleanB u files).1 =
        (cleanup_cache_fs_cycle lock2 maxB cleanB u files).1 ∧
      (cleanup_cache_fs_cycle lock maxB cleanB u files).2 = lock) :=
  ⟨cleanup_lock_discipline_index, fun _ _ _ _ _ _ => ⟨rfl, rfl⟩⟩

/-- C6 witness: on the concrete above-threshold, lock-free index state
the cycle's trace is check, acquire, re-check, the removals, release. -/
theorem cleanup_lock_discipline_amended_witness :
    (cleanup_cache id (fun _ => false) none 89 cexIndexState).trace =
      [.checkSize, .acquireOk, .recheck] ++
        (cleanup_cache id (fun _ => false) none 89 cexIndexState).removed.map
          (fun it => Event.removeItem it.cache_key) ++ [.release] :=
  ((cleanup_lock_discipline_amended.1 id (fun _ => false) none 89
      cexIndexState).2.2 (by decide) rfl).1

/-- C7 counterexample: for the same population (ages 10/90/5/95, sizes
80/5/1/60) and the same `bytesToFree = 66`, the index-mode Evictor
deletes `{c, a}` while the filesystem-mode Evictor deletes `{c, d}` —
the two modes do not select the same deletion set. -/
theorem mode_selection_counterexample :
    get_total_bytes cexIndexState - ((cleanupTargetSize 89 : Nat) : Int) = 66 ∧
    ((sizeSum cexFiles : Nat) : Int) - 80 = 66 ∧
    (cleanup_cache id (fun _ => false) none 89 cexIndexState).removed.map
      (fun it => it.cache_key) = ["c", "a"] ∧
    (cleanup_cache_fs 100 80 (fun _ => false) cexFiles).removed.map
      (fun f => f.path) = ["c", "d"] ∧
    "a" ∈ (cleanup_cache id (fun _ => false) none 89 cexIndexState).removed.map
      (fun it => it.cache_key) ∧
    ¬"a" ∈ (cleanup_cache_fs 100 80 (fun _ => false) cexFiles).removed.map
      (fun f => f.path) := by
  decide

/-- C7 amended: the two Evictor modes share the oldest-first deletion
principle — each deletes its selected candidates in nondecreasing age
order — but they do not share one candidate-selection algorithm (full
sort capped at 1000 entries vs. bounded max-heap with 20% slack), and for
the same population and `bytesToFree` their deletion sets can differ. -/
theorem mode_oldest_first_amended :
    (∀ (u : String → Bool) (ab : Option Nat) (maxC : Nat) (s : RedisState),
       (cleanup_cache id u ab maxC s).removed.Pairwise
         (fun a b => a.downloaded_at ≤ b.downloaded_at)) ∧
    (∀ (maxB cleanB : Nat) (u : String → Bool) (files : List FsFile),
       (cleanup_cache_fs maxB cleanB u files).removed.Pairwise
         (fun a b => a.mtime ≤ b.mtime)) :=
  ⟨cleanup_cache_removed_sorted, cleanup_fs_removed_sorted⟩

/-- C10: every index-cleaner pass removes at most 1000 entries — always a
prefix of the 1000 oldest — and frees at most the summed size of those
1000 oldest entries, no matter how large `bytes_to_free` is. -/
theorem bounded_eviction (u : String → Bool) (ab : Option Nat) (maxC : Nat)
    (s : RedisState) (hw : WellKeyed s.liveItems) (hnd : NodupKeys s.liveItems) :
    (cleanup_cache id u ab maxC s).removed.length ≤ 1000 ∧
    (∃ j, (cleanup_cache id u ab maxC s).removed =
      (get_oldest_items s 1000).take j) ∧
    (cleanup_cache id u ab maxC s).freed ≤
      ((get_oldest_items s 1000).map (fun it => it.size_bytes)).sum :=
  cleanup_cache_bounded u ab maxC s hw hnd

/-- C10 witness: on the concrete four-entry index one pass frees at most
the summed size of the (at most 1000) oldest entries. -/
theorem bounded_eviction_witness :
    (cleanup_cache id (fun _ => false) none 89 cexIndexState).freed ≤
      ((get_oldest_items cexIndexState 1000).map (fun it => it.size_bytes)).sum :=
  (bounded_eviction (fun _ => false) none 89 cexIndexState
    (by unfold WellKeyed; decide) (by unfold NodupKeys; decide)).2.2

end CoverArtCache
